import Mathlib

/-!
# Verification of the CPU core and the sample ring buffer

Shallow embedding of `src/hardware/cpu.cpp` (`Cpu::cycle`, `Cpu::pushStack`,
`Cpu::popStack`, `Cpu::handleInterrupts`, `Cpu::parseNextInstruction`) and of
`src/hardware/audio/ring_buffer.hpp` (`RingBuffer`).

Machine integers are natural numbers: a `uint16_t` is reduced modulo `65536`
and a `uint8_t` modulo `256` wherever the program stores or converts one.
-/

namespace GGB.Hardware

/-! ## Memory management unit -/

/-- Modelled from the spec: the `Mmu` class is declared outside the translated
sources.  Following the MMU contract of the specification it is a plain
byte-addressable memory over 16-bit addresses. -/
structure Mmu where
  /-- Content of every cell; only the cells `0 .. 65535` are ever accessed. -/
  mem : Nat → Nat

namespace Mmu

/-- Modelled from the spec: `read(address: 16-bit) -> 8-bit`.  The argument is
converted to `uint16_t`, hence the reduction of the address. -/
def read (m : Mmu) (address : Nat) : Nat :=
  m.mem (address % 65536)

/-- Modelled from the spec: `write(address: 16-bit, value: 8-bit)`.  Both
arguments are converted to their parameter types. -/
def write (m : Mmu) (address value : Nat) : Mmu :=
  { mem := fun a => if a = address % 65536 then value % 256 else m.mem a }

/-- Modelled from the spec: `readIORegisterBit(registerAddress, bitMask) -> bool`,
true when a bit selected by the mask is set in the register. -/
def readIORegisterBit (m : Mmu) (registerAddress bitMask : Nat) : Bool :=
  decide (m.read registerAddress &&& bitMask ≠ 0)

/-- Modelled from the spec: `writeIORegisterBit(registerAddress, bitMask, value: bool)`,
which sets or clears the bits selected by the mask and keeps the other bits
of the register byte. -/
def writeIORegisterBit (m : Mmu) (registerAddress bitMask : Nat) (value : Bool) : Mmu :=
  if value then m.write registerAddress (m.read registerAddress ||| bitMask)
  else m.write registerAddress (m.read registerAddress &&& (bitMask ^^^ 255))

end Mmu

/-! ## Constants of the interrupt controller -/

/-- The constants `Const::...` used by `Cpu::handleInterrupts`.  Their
declarations are outside the translated sources, so they are a parameter of
the embedding. -/
structure Const where
  AddrRegInterruptEnabled : Nat
  AddrRegInterruptFlag : Nat
  FlagInterruptVBlank : Nat
  FlagInterruptLcd : Nat
  FlagInterruptTimer : Nat
  FlagInterruptSerial : Nat
  FlagInterruptInput : Nat
  AddrVectorVBlank : Nat
  AddrVectorLcd : Nat
  AddrVectorTimer : Nat
  AddrVectorSerial : Nat
  AddrVectorInput : Nat

/-- The five interrupt sources, listed from the highest to the lowest
priority. -/
inductive Interrupt where
  | VBlank
  | Lcd
  | Timer
  | Serial
  | Input
  deriving DecidableEq, Repr

namespace Interrupt

/-- Position of a source in the order VBlank > LCD > Timer > Serial > Joypad;
a smaller rank is a higher priority. -/
def rank : Interrupt → Nat
  | VBlank => 0
  | Lcd => 1
  | Timer => 2
  | Serial => 3
  | Input => 4

end Interrupt

namespace Const

/-- Bit mask of a source in the enable and in the flag register. -/
def flag (k : Const) : Interrupt → Nat
  | .VBlank => k.FlagInterruptVBlank
  | .Lcd => k.FlagInterruptLcd
  | .Timer => k.FlagInterruptTimer
  | .Serial => k.FlagInterruptSerial
  | .Input => k.FlagInterruptInput

/-- Service vector of a source. -/
def vector (k : Const) : Interrupt → Nat
  | .VBlank => k.AddrVectorVBlank
  | .Lcd => k.AddrVectorLcd
  | .Timer => k.AddrVectorTimer
  | .Serial => k.AddrVectorSerial
  | .Input => k.AddrVectorInput

/-- A mask that selects exactly one bit of a byte. -/
def singleBit (m : Nat) : Prop :=
  m = 1 ∨ m = 2 ∨ m = 4 ∨ m = 8 ∨ m = 16 ∨ m = 32 ∨ m = 64 ∨ m = 128

instance (m : Nat) : Decidable (singleBit m) := by
  unfold singleBit; infer_instance

/-- What the specification states about the constants: the two registers are
distinct 16-bit addresses, every source is bound to one bit of its own, and
every source has a service vector of its own, a 16-bit address other than 0
(the value `handleInterrupts` uses for "no source selected"). -/
def WellFormed (k : Const) : Prop :=
  k.AddrRegInterruptEnabled < 65536 ∧ k.AddrRegInterruptFlag < 65536 ∧
  k.AddrRegInterruptEnabled ≠ k.AddrRegInterruptFlag ∧
  (∀ t : Interrupt, singleBit (k.flag t)) ∧
  (∀ t u : Interrupt, k.flag t = k.flag u → t = u) ∧
  (∀ t : Interrupt, k.vector t ≠ 0 ∧ k.vector t < 65536) ∧
  (∀ t u : Interrupt, k.vector t = k.vector u → t = u)

/-- The constants of the emulated handheld: the register addresses are the
ones `Cpu::setPowerUpSequence` initialises as `IF` (0xFF0F) and `IE` (0xFFFF);
masks and vectors are those of the hardware. -/
def dmg : Const where
  AddrRegInterruptEnabled := 0xFFFF
  AddrRegInterruptFlag := 0xFF0F
  FlagInterruptVBlank := 0x01
  FlagInterruptLcd := 0x02
  FlagInterruptTimer := 0x04
  FlagInterruptSerial := 0x08
  FlagInterruptInput := 0x10
  AddrVectorVBlank := 0x40
  AddrVectorLcd := 0x48
  AddrVectorTimer := 0x50
  AddrVectorSerial := 0x58
  AddrVectorInput := 0x60

end Const

/-! ## Instructions -/

namespace Instructions

/-- An entry of an opcode table.  `executeInterpreter` is a function pointer
in the program; here it is the identity of the pointed-to routine, whose
behaviour is supplied to `Cpu.cycle` by an interpretation function. -/
structure InstructionDefinition where
  length : Nat
  cycles : Nat
  executeInterpreter : Nat
  deriving DecidableEq, Repr

/-- The bytes read by the decoder. -/
structure ParsedBytes where
  opcode : Nat
  low : Nat
  high : Nat
  b16 : Nat
  deriving DecidableEq, Repr

/-- A decoded instruction. -/
structure ParsedInstruction where
  bytePosition : Nat
  parsedBytes : ParsedBytes
  definition : InstructionDefinition
  deriving DecidableEq, Repr

/-- The two opcode tables (`instructionSet.set`, `instructionSet.prefixSet`),
indexed by an opcode byte.  Their contents are a parameter of the embedding. -/
structure InstructionSet where
  set : Nat → InstructionDefinition
  prefixSet : Nat → InstructionDefinition

end Instructions

open Instructions

/-! ## CPU state -/

namespace Enum

/-- Run mode of the CPU. -/
inductive CpuState where
  | RUNNING
  | PAUSED
  | STEP
  deriving DecidableEq, Repr

end Enum

/-- State of a `Cpu` object.  The register file besides `pc` and `sp` is
modelled from the spec (six general 8-bit registers and a flag register):
`cycle` and its helpers never access it. -/
structure Cpu where
  pc : Nat
  sp : Nat
  general : Fin 6 → Nat
  flags : Nat
  halted : Bool
  interruptMasterFlag : Bool
  state : Enum.CpuState
  currentInstruction : ParsedInstruction
  nextInstruction : ParsedInstruction
  mmu : Mmu

namespace Cpu

/-- `Cpu::pushStack`. -/
def pushStack (c : Cpu) (value : Nat) : Cpu :=
  let mmu1 := c.mmu.write (c.sp + 65536 - 1) ((value &&& 0xFF00) >>> 8)
  let mmu2 := mmu1.write (c.sp + 65536 - 2) (value &&& 0x00FF)
  { c with mmu := mmu2, sp := (c.sp + 65536 - 2) % 65536 }

/-- `Cpu::popStack`: the value read and the state afterwards. -/
def popStack (c : Cpu) : Nat × Cpu :=
  let value := ((c.mmu.read (c.sp + 1) <<< 8) ||| c.mmu.read c.sp) % 65536
  (value, { c with sp := (c.sp + 2) % 65536 })

/-- The first half of `Cpu::handleInterrupts` (the five tests and the
`if`/`else if` chain): the values of the locals `interruptVector`
(`uint16_t`) and `interruptFlag` (`uint8_t`), which start at 0, and of the
member `halted`, which every branch of the chain clears. -/
def selectInterrupt (k : Const) (c : Cpu) : Nat × Nat × Bool :=
  let vBlankInterrupt :=
    c.mmu.readIORegisterBit k.AddrRegInterruptEnabled k.FlagInterruptVBlank
      && c.mmu.readIORegisterBit k.AddrRegInterruptFlag k.FlagInterruptVBlank
  let lcdInterrupt :=
    c.mmu.readIORegisterBit k.AddrRegInterruptEnabled k.FlagInterruptLcd
      && c.mmu.readIORegisterBit k.AddrRegInterruptFlag k.FlagInterruptLcd
  let timerInterrupt :=
    c.mmu.readIORegisterBit k.AddrRegInterruptEnabled k.FlagInterruptTimer
      && c.mmu.readIORegisterBit k.AddrRegInterruptFlag k.FlagInterruptTimer
  let serialInterrupt :=
    c.mmu.readIORegisterBit k.AddrRegInterruptEnabled k.FlagInterruptSerial
      && c.mmu.readIORegisterBit k.AddrRegInterruptFlag k.FlagInterruptSerial
  let joypadInterrupt :=
    c.mmu.readIORegisterBit k.AddrRegInterruptEnabled k.FlagInterruptInput
      && c.mmu.readIORegisterBit k.AddrRegInterruptFlag k.FlagInterruptInput
  if vBlankInterrupt then (k.AddrVectorVBlank % 65536, k.FlagInterruptVBlank % 256, false)
  else if lcdInterrupt then (k.AddrVectorLcd % 65536, k.FlagInterruptLcd % 256, false)
  else if timerInterrupt then (k.AddrVectorTimer % 65536, k.FlagInterruptTimer % 256, false)
  else if serialInterrupt then (k.AddrVectorSerial % 65536, k.FlagInterruptSerial % 256, false)
  else if joypadInterrupt then (k.AddrVectorInput % 65536, k.FlagInterruptInput % 256, false)
  else (0, 0, c.halted)

/-- `Cpu::handleInterrupts`: the returned flag and the state afterwards. -/
def handleInterrupts (k : Const) (c : Cpu) : Bool × Cpu :=
  let selected := c.selectInterrupt k
  let interruptVector := selected.1
  let interruptFlag := selected.2.1
  let c1 := { c with halted := selected.2.2 }
  if interruptVector ≠ 0 ∧ c1.interruptMasterFlag = true then
    let c2 := { c1 with interruptMasterFlag := false }
    let c3 := { c2 with
      mmu := c2.mmu.writeIORegisterBit k.AddrRegInterruptFlag interruptFlag false }
    let c4 := c3.pushStack c3.pc
    (true, { c4 with pc := interruptVector })
  else
    (false, c1)

/-- `Cpu::parseNextInstruction`.  The local `nextInstruction` is
value-initialised, so the immediates that are not read stay 0. -/
def parseNextInstruction (iset : InstructionSet) (c : Cpu) : ParsedInstruction :=
  let nextByte := c.mmu.read c.pc
  if nextByte ≠ 0xCB then
    let definition := iset.set nextByte
    let low := if definition.length ≥ 2 then c.mmu.read (c.pc + 1) else 0
    if definition.length = 3 then
      let high := c.mmu.read (c.pc + 2)
      { bytePosition := c.pc
        parsedBytes :=
          { opcode := nextByte, low := low, high := high, b16 := ((high <<< 8) ||| low) % 65536 }
        definition := definition }
    else
      { bytePosition := c.pc
        parsedBytes := { opcode := nextByte, low := low, high := 0, b16 := 0 }
        definition := definition }
  else
    { bytePosition := c.pc
      parsedBytes := { opcode := nextByte, low := c.mmu.read (c.pc + 1), high := 0, b16 := 0 }
      definition := iset.prefixSet (c.mmu.read (c.pc + 1)) }

/-- The addresses `Cpu::parseNextInstruction` passes to `mmu.read`, in
program order, each converted to `uint16_t` as `read` does. -/
def parseReads (iset : InstructionSet) (c : Cpu) : List Nat :=
  let nextByte := c.mmu.read c.pc
  if nextByte ≠ 0xCB then
    let definition := iset.set nextByte
    [c.pc % 65536]
      ++ (if definition.length ≥ 2 then [(c.pc + 1) % 65536] else [])
      ++ (if definition.length = 3 then [(c.pc + 2) % 65536] else [])
  else
    [c.pc % 65536, (c.pc + 1) % 65536, (c.pc + 1) % 65536]

/-- The state on which `Cpu::cycle` invokes the effect of the pipelined
instruction: `currentInstruction = nextInstruction; pc += length`. -/
def fetch (c : Cpu) : Cpu :=
  let c1 := { c with currentInstruction := c.nextInstruction }
  { c1 with pc := (c1.pc + c1.currentInstruction.definition.length) % 65536 }

/-- The block `if(!halted) { ... }` of `Cpu::cycle`: the cycle count stored
in the `uint8_t opCycles` and the state afterwards.  `run` gives the
behaviour of the routine behind each `executeInterpreter` pointer, which
receives the whole CPU. -/
def executeStep (run : Nat → Cpu → Nat × Cpu) (iset : InstructionSet) (c : Cpu) : Nat × Cpu :=
  let c2 := c.fetch
  let r := run c2.currentInstruction.definition.executeInterpreter c2
  let c3 := r.2
  (r.1 % 256, { c3 with nextInstruction := c3.parseNextInstruction iset })

/-- The statement `if(handleInterrupts()) nextInstruction = parseNextInstruction();`
of `Cpu::cycle`, applied to the result of the call. -/
def reprime (iset : InstructionSet) (r : Bool × Cpu) : Cpu :=
  if r.1 = true then { r.2 with nextInstruction := r.2.parseNextInstruction iset } else r.2

/-- The statement `if(state == Enum::CpuState::STEP) state = Enum::CpuState::PAUSED;`
of `Cpu::cycle`. -/
def demote (c : Cpu) : Cpu :=
  if c.state = Enum.CpuState.STEP then { c with state := Enum.CpuState.PAUSED } else c

/-- `Cpu::cycle`: the returned cycle count and the state afterwards. -/
def cycle (run : Nat → Cpu → Nat × Cpu) (k : Const) (iset : InstructionSet) (c : Cpu) :
    Nat × Cpu :=
  let r1 : Nat × Cpu := if c.halted = false then c.executeStep run iset else (0, c)
  let c3 := reprime iset (r1.2.handleInterrupts k)
  (r1.1, demote c3)

/-- State after `n` consecutive calls of `Cpu::cycle`. -/
def cycles (run : Nat → Cpu → Nat × Cpu) (k : Const) (iset : InstructionSet) :
    Nat → Cpu → Cpu
  | 0, c => c
  | n + 1, c => cycles run k iset n (c.cycle run k iset).2

/-- A source is firable when its enable bit and its pending bit are both
set. -/
def firable (k : Const) (c : Cpu) (t : Interrupt) : Bool :=
  c.mmu.readIORegisterBit k.AddrRegInterruptEnabled (k.flag t)
    && c.mmu.readIORegisterBit k.AddrRegInterruptFlag (k.flag t)

/-- The state `handleInterrupts` builds when it services the source `t`:
`halted` and the master flag cleared, the pending bit of `t` cleared, the
program counter pushed and replaced by the vector of `t`. -/
def service (k : Const) (c : Cpu) (t : Interrupt) : Cpu :=
  let c1 := { c with halted := false }
  let c2 := { c1 with interruptMasterFlag := false }
  let c3 := { c2 with
    mmu := c2.mmu.writeIORegisterBit k.AddrRegInterruptFlag (k.flag t % 256) false }
  let c4 := c3.pushStack c3.pc
  { c4 with pc := k.vector t % 65536 }

end Cpu

/-! ## Concrete machines used to instantiate the theorems -/

namespace Sample

/-- A table entry of length 1 and cost 4 whose routine is number 0. -/
def nop : InstructionDefinition :=
  { length := 1, cycles := 4, executeInterpreter := 0 }

/-- Both tables map every opcode to `nop`. -/
def iset : InstructionSet :=
  { set := fun _ => nop, prefixSet := fun _ => nop }

/-- Every routine changes nothing and reports 4 cycles. -/
def run : Nat → Cpu → Nat × Cpu :=
  fun _ s => (4, s)

/-- A memory with the given enable byte at 0xFFFF and the given flag byte at
0xFF0F, zero elsewhere. -/
def mmu (ie iflag : Nat) : Mmu :=
  { mem := fun a => if a = 0xFFFF then ie else if a = 0xFF0F then iflag else 0 }

/-- A running machine at address 0x0150 with an empty stack at 0xFFFE and no
interrupt enabled or pending. -/
def cpu : Cpu :=
  { pc := 0x0150
    sp := 0xFFFE
    general := fun _ => 0
    flags := 0
    halted := false
    interruptMasterFlag := true
    state := Enum.CpuState.RUNNING
    currentInstruction :=
      { bytePosition := 0x014F, parsedBytes := ⟨0, 0, 0, 0⟩, definition := nop }
    nextInstruction :=
      { bytePosition := 0x0150, parsedBytes := ⟨0, 0, 0, 0⟩, definition := nop }
    mmu := mmu 0 0 }

/-- The machine `cpu` with VBlank and Timer enabled and pending. -/
def cpuPending : Cpu :=
  { cpu with mmu := mmu 0x05 0x05 }

/-- The machine `cpuPending`, halted and with the master flag clear. -/
def cpuHalted : Cpu :=
  { cpuPending with halted := true, interruptMasterFlag := false }

/-- A table entry of declared length 0 whose routine is number 1. -/
def illegal : InstructionDefinition :=
  { length := 0, cycles := 0, executeInterpreter := 1 }

/-- The base table maps opcode 0xD3 to `illegal` and every other opcode to
`nop`; the prefixed table maps every opcode to `nop`. -/
def isetIllegal : InstructionSet :=
  { set := fun b => if b = 0xD3 then illegal else nop, prefixSet := fun _ => nop }

/-- Routine number 1 stores 0xAA in the flag register and reports 8 cycles;
every other routine changes nothing and reports 4 cycles. -/
def runMark : Nat → Cpu → Nat × Cpu :=
  fun id s => if id = 1 then (8, { s with flags := 0xAA }) else (4, s)

/-- A memory holding the byte `b` at 0x0150 and zero elsewhere. -/
def mmuAt (b : Nat) : Mmu :=
  { mem := fun a => if a = 0x0150 then b else 0 }

/-- The machine `cpu` over a memory with the prefix byte 0xCB at its program
counter, the pipelined instruction being the decode of that memory under
the table `iset`. -/
def cpuPrefixed : Cpu :=
  { cpu with
    mmu := mmuAt 0xCB
    nextInstruction :=
      { bytePosition := 0x0150, parsedBytes := ⟨0xCB, 0, 0, 0⟩, definition := nop } }

/-- The machine `cpu` over a memory with the opcode 0xD3 at its program
counter, the pipelined instruction being the decode of that memory under
the table `isetIllegal`. -/
def cpuIllegal : Cpu :=
  { cpu with
    mmu := mmuAt 0xD3
    nextInstruction :=
      { bytePosition := 0x0150, parsedBytes := ⟨0xD3, 0, 0, 0⟩, definition := illegal } }

/-- A table entry of length 2 and cost 8 whose routine is number 0. -/
def bit : InstructionDefinition :=
  { length := 2, cycles := 8, executeInterpreter := 0 }

/-- The base table maps every opcode to `nop`; every entry of the prefixed
table is the two-byte entry `bit`. -/
def isetCB : InstructionSet :=
  { set := fun _ => nop, prefixSet := fun _ => bit }

/-- The machine `cpu` over a memory with the prefix byte 0xCB at its program
counter, the pipelined instruction being the decode of that memory under
the table `isetCB`. -/
def cpuCB : Cpu :=
  { cpu with
    mmu := mmuAt 0xCB
    nextInstruction :=
      { bytePosition := 0x0150, parsedBytes := ⟨0xCB, 0, 0, 0⟩, definition := bit } }

end Sample

/-! ## Sample ring buffer -/

namespace Audio

/-- State of a `RingBuffer<T>`.  The array `buf_` is a function of the index;
the indices are `size_t` values that stay far below the word size, so they are
plain natural numbers.  The mutex has no sequential content. -/
structure RingBuffer (T : Type) where
  buf_ : Nat → T
  head_ : Nat
  tail_ : Nat
  max_size_ : Nat
  full_ : Bool

namespace RingBuffer

variable {T : Type}

/-- The constructor `RingBuffer(size_t size)`; `init` is the content of the
freshly allocated array. -/
def create (size : Nat) (init : Nat → T) : RingBuffer T :=
  { buf_ := init, head_ := 0, tail_ := 0, max_size_ := size, full_ := false }

/-- `RingBuffer::put`. -/
def put (rb : RingBuffer T) (item : T) : RingBuffer T :=
  let buf1 := fun i => if i = rb.head_ then item else rb.buf_ i
  let tail1 := if rb.full_ = true then (rb.tail_ + 1) % rb.max_size_ else rb.tail_
  let head1 := (rb.head_ + 1) % rb.max_size_
  { rb with buf_ := buf1, tail_ := tail1, head_ := head1, full_ := decide (head1 = tail1) }

/-- `RingBuffer::empty`. -/
def empty (rb : RingBuffer T) : Bool :=
  !rb.full_ && decide (rb.head_ = rb.tail_)

/-- `RingBuffer::full`. -/
def full (rb : RingBuffer T) : Bool :=
  rb.full_

/-- `RingBuffer::capacity`. -/
def capacity (rb : RingBuffer T) : Nat :=
  rb.max_size_

/-- `RingBuffer::get`: the returned item and the state afterwards. -/
def get [Inhabited T] (rb : RingBuffer T) : T × RingBuffer T :=
  if rb.empty = true then (default, rb)
  else
    let val := rb.buf_ rb.tail_
    (val, { rb with full_ := false, tail_ := (rb.tail_ + 1) % rb.max_size_ })

/-- `RingBuffer::reset`. -/
def reset (rb : RingBuffer T) : RingBuffer T :=
  { rb with head_ := rb.tail_, full_ := false }

/-- `RingBuffer::size`. -/
def size (rb : RingBuffer T) : Nat :=
  if rb.full_ = false then
    if rb.head_ ≥ rb.tail_ then rb.head_ - rb.tail_
    else rb.max_size_ + rb.head_ - rb.tail_
  else rb.max_size_

end RingBuffer

/-- A call of one of the three mutating operations of the buffer. -/
inductive Call (T : Type) where
  | put (item : T)
  | get
  | reset
  deriving Repr

namespace RingBuffer

variable {T : Type}

/-- Runs a sequence of calls and collects what the `get` calls return. -/
def runCalls [Inhabited T] : RingBuffer T → List (Call T) → List T × RingBuffer T
  | rb, [] => ([], rb)
  | rb, Call.put item :: cs => runCalls (rb.put item) cs
  | rb, Call.get :: cs =>
    let r := runCalls rb.get.2 cs
    (rb.get.1 :: r.1, r.2)
  | rb, Call.reset :: cs => runCalls rb.reset cs

/-- `n` stored items read from slot `start` onwards, wrapping at `cap`. -/
def slots (buf : Nat → T) (cap : Nat) : Nat → Nat → List T
  | _, 0 => []
  | start, n + 1 => buf start :: slots buf cap ((start + 1) % cap) n

/-- The unread items of the buffer, oldest first. -/
def contents (rb : RingBuffer T) : List T :=
  slots rb.buf_ rb.max_size_ rb.tail_ rb.size

/-- The index invariant of the buffer. -/
def Inv (rb : RingBuffer T) : Prop :=
  rb.head_ < rb.max_size_ ∧ rb.tail_ < rb.max_size_ ∧ (rb.full_ = true → rb.head_ = rb.tail_)

end RingBuffer

/-- The bounded list queue of the specification: the unread items, oldest
first, and the capacity. -/
structure ListQueue (T : Type) where
  items : List T
  cap : Nat

namespace ListQueue

variable {T : Type}

/-- Specification of `put`: append the item; a queue that already holds
`cap` items first drops its oldest item. -/
def put (q : ListQueue T) (item : T) : ListQueue T :=
  if q.items.length = q.cap then { q with items := q.items.tail ++ [item] }
  else { q with items := q.items ++ [item] }

/-- Specification of `get`: remove and return the oldest item, or return the
default value when there is none. -/
def get [Inhabited T] (q : ListQueue T) : T × ListQueue T :=
  match q.items with
  | [] => (default, q)
  | x :: rest => (x, { q with items := rest })

/-- Specification of `reset`: drop every item. -/
def reset (q : ListQueue T) : ListQueue T :=
  { q with items := [] }

/-- Runs a sequence of calls on the list queue and collects what the `get`
calls return. -/
def runCalls [Inhabited T] : ListQueue T → List (Call T) → List T × ListQueue T
  | q, [] => ([], q)
  | q, Call.put item :: cs => runCalls (q.put item) cs
  | q, Call.get :: cs =>
    let r := runCalls q.get.2 cs
    (q.get.1 :: r.1, r.2)
  | q, Call.reset :: cs => runCalls q.reset cs

end ListQueue

end Audio

end GGB.Hardware

/-! # Theorems -/

namespace GGB.Hardware

open Instructions

/-! ## Bytes and words -/

/-- The high byte selected by `(value & 0xFF00) >> 8`. -/
theorem high_byte_eq (v : Nat) : (v &&& 0xFF00) >>> 8 = v / 256 % 256 := by
  have h1 : (0xFF00 : Nat) = (2 ^ 8 - 1) <<< 8 := by decide
  have h2 : (256 : Nat) = 2 ^ 8 := by decide
  apply Nat.eq_of_testBit_eq
  intro i
  rw [h1, h2, Nat.testBit_mod_two_pow, ← Nat.shiftRight_eq_div_pow, Nat.testBit_shiftRight,
    Nat.testBit_shiftRight, Nat.testBit_and, Nat.testBit_shiftLeft, Nat.testBit_two_pow_sub_one]
  simp
  rw [Bool.and_comm]

/-- The low byte selected by `value & 0x00FF`. -/
theorem low_byte_eq (v : Nat) : v &&& 0x00FF = v % 256 :=
  Nat.and_pow_two_sub_one_eq_mod v 8

/-- Combining a high part with a byte by `(high << 8) | low`. -/
theorem shift_or_eq (x y : Nat) (hy : y < 256) : x <<< 8 ||| y = x * 256 + y := by
  rw [Nat.shiftLeft_eq]
  have h := @Nat.mul_add_lt_is_or 8 y hy x
  rw [Nat.mul_comm] at h
  omega

/-- Splitting a 16-bit word into the two bytes `pushStack` writes and
recombining them the way `popStack` does gives the word back. -/
theorem word_of_bytes (v : Nat) (hv : v < 65536) :
    (((((v &&& 0xFF00) >>> 8) % 256) <<< 8) ||| ((v &&& 0x00FF) % 256)) % 65536 = v := by
  rw [high_byte_eq, low_byte_eq, shift_or_eq _ _ (Nat.mod_lt _ (by decide))]
  omega

/-! ## Stack operations -/

namespace Cpu

/-- The value `popStack` returns right after `pushStack value`. -/
theorem popStack_pushStack_value (c : Cpu) (value : Nat) (hv : value < 65536) :
    ((c.pushStack value).popStack).1 = value := by
  have h1 : ((c.sp + 65536 - 2) % 65536 + 1) % 65536 = (c.sp + 65536 - 1) % 65536 := by omega
  have h2 : (c.sp + 65536 - 1) % 65536 ≠ (c.sp + 65536 - 2) % 65536 := by omega
  simp only [popStack, pushStack, Mmu.read, Mmu.write, h1, h2, Nat.mod_mod, if_true, if_false]
  exact word_of_bytes value hv

/-- The stack pointer after `pushStack`. -/
theorem pushStack_sp (c : Cpu) (value : Nat) :
    (c.pushStack value).sp = (c.sp + 65536 - 2) % 65536 := rfl

/-- C1. Stack round trip: over a plain 16-bit byte memory, for every 16-bit
value `V` and every 16-bit stack pointer `S`, `popStack()` right after
`pushStack(V)` returns exactly `V` and leaves the stack pointer equal to `S`. -/
theorem stack_round_trip (c : Cpu) (V : Nat) (hV : V < 65536) (hS : c.sp < 65536) :
    ((c.pushStack V).popStack).1 = V ∧ ((c.pushStack V).popStack).2.sp = c.sp := by
  refine ⟨popStack_pushStack_value c V hV, ?_⟩
  show ((c.sp + 65536 - 2) % 65536 + 2) % 65536 = c.sp
  omega

end Cpu

end GGB.Hardware

/-! ## Interrupt constants and register bits -/

namespace GGB.Hardware
open Instructions

namespace Const

/-- The constants of the emulated handheld satisfy the assumptions on the
constants. -/
theorem dmg_wellFormed : dmg.WellFormed := by
  refine ⟨by decide, by decide, by decide, ?_, ?_, ?_, ?_⟩
  · intro t; cases t <;> decide
  · intro t u; cases t <;> cases u <;> decide
  · intro t; cases t <;> decide
  · intro t u; cases t <;> cases u <;> decide

/-- A single-bit mask fits in a byte. -/
theorem singleBit_lt {m : Nat} (h : singleBit m) : m < 256 := by
  unfold singleBit at h; omega

/-- The complement of a single-bit mask within a byte. -/
theorem singleBit_xor_le {m : Nat} (h : singleBit m) : m ^^^ 255 ≤ 255 := by
  rcases h with h | h | h | h | h | h | h | h <;> subst h <;> decide

/-- The complement of a mask does not select the bit of the mask. -/
theorem singleBit_clear_self {m : Nat} (h : singleBit m) : (m ^^^ 255) &&& m = 0 := by
  rcases h with h | h | h | h | h | h | h | h <;> subst h <;> decide

/-- The complement of a mask selects every other single bit. -/
theorem singleBit_clear_other {m n : Nat} (hm : singleBit m) (hn : singleBit n) (hne : m ≠ n) :
    (m ^^^ 255) &&& n = n := by
  rcases hm with h | h | h | h | h | h | h | h <;> subst h <;>
    rcases hn with h | h | h | h | h | h | h | h <;> subst h <;>
      first
        | exact absurd rfl hne
        | decide

end Const

namespace Mmu

/-- Reading after a write. -/
theorem read_write (m : Mmu) (a b v : Nat) :
    (m.write a v).read b = if b % 65536 = a % 65536 then v % 256 else m.read b := rfl

/-- Clearing a bit leaves it clear. -/
theorem clear_bit_self (x : Nat) {m : Nat} (hm : Const.singleBit m) :
    (x &&& (m ^^^ 255)) &&& m = 0 := by
  rw [Nat.land_assoc, Const.singleBit_clear_self hm]; simp

/-- Clearing a bit keeps every other bit. -/
theorem clear_bit_other (x : Nat) {m n : Nat} (hm : Const.singleBit m) (hn : Const.singleBit n)
    (hne : m ≠ n) : (x &&& (m ^^^ 255)) &&& n = x &&& n := by
  rw [Nat.land_assoc, Const.singleBit_clear_other hm hn hne]

/-- A register byte with a bit cleared is a byte. -/
theorem clear_bit_lt (x : Nat) {m : Nat} (hm : Const.singleBit m) :
    x &&& (m ^^^ 255) < 256 :=
  Nat.lt_of_le_of_lt Nat.and_le_right (Nat.lt_succ_of_le (Const.singleBit_xor_le hm))

end Mmu
end GGB.Hardware

/-! ## Interrupt controller -/

namespace GGB.Hardware
namespace Cpu

open Instructions

/-- Re-priming the pipeline changes only the pipelined instruction. -/
theorem reprime_fields (iset : InstructionSet) (r : Bool × Cpu) :
    (reprime iset r).pc = r.2.pc ∧ (reprime iset r).sp = r.2.sp ∧
      (reprime iset r).general = r.2.general ∧ (reprime iset r).flags = r.2.flags ∧
      (reprime iset r).halted = r.2.halted ∧
      (reprime iset r).interruptMasterFlag = r.2.interruptMasterFlag ∧
      (reprime iset r).state = r.2.state ∧
      (reprime iset r).currentInstruction = r.2.currentInstruction ∧
      (reprime iset r).mmu = r.2.mmu := by
  unfold reprime
  split <;> exact ⟨rfl, rfl, rfl, rfl, rfl, rfl, rfl, rfl, rfl⟩

/-- The run-mode transition changes only the run mode. -/
theorem demote_fields (c : Cpu) :
    (demote c).pc = c.pc ∧ (demote c).sp = c.sp ∧ (demote c).general = c.general ∧
      (demote c).flags = c.flags ∧ (demote c).halted = c.halted ∧
      (demote c).interruptMasterFlag = c.interruptMasterFlag ∧
      (demote c).currentInstruction = c.currentInstruction ∧
      (demote c).nextInstruction = c.nextInstruction ∧ (demote c).mmu = c.mmu := by
  unfold demote
  split <;> exact ⟨rfl, rfl, rfl, rfl, rfl, rfl, rfl, rfl, rfl⟩

/-- Without a firable source `handleInterrupts` changes nothing. -/
theorem handleInterrupts_none (k : Const) (c : Cpu) (h : ∀ t, c.firable k t = false) :
    c.handleInterrupts k = (false, c) := by
  have h1 := h .VBlank
  have h2 := h .Lcd
  have h3 := h .Timer
  have h4 := h .Serial
  have h5 := h .Input
  simp only [firable, Const.flag] at h1 h2 h3 h4 h5
  simp [handleInterrupts, selectInterrupt, h1, h2, h3, h4, h5]

/-- The branch `handleInterrupts` takes when `t` is the first firable source
of the priority order. -/
theorem handleInterrupts_highest (k : Const) (c : Cpu) (t : Interrupt)
    (ht : c.firable k t = true) (hh : ∀ u, u.rank < t.rank → c.firable k u = false) :
    c.handleInterrupts k =
      if k.vector t % 65536 ≠ 0 ∧ c.interruptMasterFlag = true then (true, c.service k t)
      else (false, { c with halted := false }) := by
  cases t
  · simp only [firable, Const.flag] at ht
    simp only [handleInterrupts, selectInterrupt, ht, service, Const.flag, Const.vector, if_true]
  · have h1 := hh .VBlank (by decide)
    simp only [firable, Const.flag] at ht h1
    simp [handleInterrupts, selectInterrupt, ht, h1, service, Const.flag, Const.vector]
  · have h1 := hh .VBlank (by decide)
    have h2 := hh .Lcd (by decide)
    simp only [firable, Const.flag] at ht h1 h2
    simp [handleInterrupts, selectInterrupt, ht, h1, h2, service, Const.flag, Const.vector]
  · have h1 := hh .VBlank (by decide)
    have h2 := hh .Lcd (by decide)
    have h3 := hh .Timer (by decide)
    simp only [firable, Const.flag] at ht h1 h2 h3
    simp [handleInterrupts, selectInterrupt, ht, h1, h2, h3, service, Const.flag, Const.vector]
  · have h1 := hh .VBlank (by decide)
    have h2 := hh .Lcd (by decide)
    have h3 := hh .Timer (by decide)
    have h4 := hh .Serial (by decide)
    simp only [firable, Const.flag] at ht h1 h2 h3 h4
    simp [handleInterrupts, selectInterrupt, ht, h1, h2, h3, h4, service, Const.flag, Const.vector]

/-- Among the firable sources there is one of highest priority. -/
theorem exists_highest (k : Const) (c : Cpu) (h : ∃ t, c.firable k t = true) :
    ∃ t, c.firable k t = true ∧ ∀ u, u.rank < t.rank → c.firable k u = false := by
  by_cases h1 : c.firable k .VBlank = true
  · exact ⟨.VBlank, h1, fun u hu => by cases u <;> simp [Interrupt.rank] at hu⟩
  by_cases h2 : c.firable k .Lcd = true
  · exact ⟨.Lcd, h2, fun u hu => by cases u <;> simp_all [Interrupt.rank]⟩
  by_cases h3 : c.firable k .Timer = true
  · exact ⟨.Timer, h3, fun u hu => by cases u <;> simp_all [Interrupt.rank]⟩
  by_cases h4 : c.firable k .Serial = true
  · exact ⟨.Serial, h4, fun u hu => by cases u <;> simp_all [Interrupt.rank]⟩
  by_cases h5 : c.firable k .Input = true
  · exact ⟨.Input, h5, fun u hu => by cases u <;> simp_all [Interrupt.rank]⟩
  obtain ⟨t, ht⟩ := h
  cases t <;> simp_all

/-- With well-formed constants, `handleInterrupts` services the first firable
source exactly when the master flag is set. -/
theorem handleInterrupts_wellFormed (k : Const) (hk : k.WellFormed) (c : Cpu) (t : Interrupt)
    (ht : c.firable k t = true) (hh : ∀ u, u.rank < t.rank → c.firable k u = false) :
    c.handleInterrupts k =
      if c.interruptMasterFlag = true then (true, c.service k t)
      else (false, { c with halted := false }) := by
  obtain ⟨_, _, _, _, _, hv, _⟩ := hk
  have h1 : k.vector t % 65536 = k.vector t := Nat.mod_eq_of_lt (hv t).2
  rw [handleInterrupts_highest k c t ht hh, h1]
  simp [(hv t).1]

/-- A call that returns true has serviced the first firable source, with
the master flag set on entry. -/
theorem serviced_cases (k : Const) (hk : k.WellFormed) (c : Cpu)
    (h : (c.handleInterrupts k).1 = true) :
    ∃ t, c.firable k t = true ∧ (∀ u, u.rank < t.rank → c.firable k u = false) ∧
      c.interruptMasterFlag = true ∧ c.handleInterrupts k = (true, c.service k t) := by
  by_cases hex : ∃ t, c.firable k t = true
  · obtain ⟨t, ht, hh⟩ := exists_highest k c hex
    have heq := handleInterrupts_wellFormed k hk c t ht hh
    by_cases hime : c.interruptMasterFlag = true
    · rw [if_pos hime] at heq
      exact ⟨t, ht, hh, hime, heq⟩
    · rw [if_neg hime] at heq
      rw [heq] at h
      exact absurd h (by simp)
  · have hnone : ∀ t, c.firable k t = false := by
      intro t
      cases hft : c.firable k t
      · rfl
      · exact absurd ⟨t, hft⟩ hex
    rw [handleInterrupts_none k c hnone] at h
    exact absurd h (by simp)

/-- The registers of the state built by `service`. -/
theorem service_regs (k : Const) (c : Cpu) (t : Interrupt) :
    (c.service k t).pc = k.vector t % 65536 ∧
    (c.service k t).sp = (c.sp + 65536 - 2) % 65536 ∧
    (c.service k t).interruptMasterFlag = false ∧
    (c.service k t).halted = false :=
  ⟨rfl, rfl, rfl, rfl⟩

/-- The value `popStack` returns from the state built by `service`. -/
theorem service_popStack (k : Const) (c : Cpu) (t : Interrupt) (hp : c.pc < 65536) :
    ((c.service k t).popStack).1 = c.pc := by
  have h1 : ((c.sp + 65536 - 2) % 65536 + 1) % 65536 = (c.sp + 65536 - 1) % 65536 := by omega
  have h2 : (c.sp + 65536 - 1) % 65536 ≠ (c.sp + 65536 - 2) % 65536 := by omega
  simp only [popStack, service, pushStack, Mmu.read, Mmu.write, h1, h2, Nat.mod_mod, if_true,
    if_false]
  exact word_of_bytes c.pc hp

/-- A register the push does not overwrite holds, after `service`, what the
clearing of the pending bit left in it. -/
theorem service_read (k : Const) (c : Cpu) (t : Interrupt) (a : Nat)
    (h1 : (c.sp + 65536 - 1) % 65536 ≠ a % 65536) (h2 : (c.sp + 65536 - 2) % 65536 ≠ a % 65536) :
    (c.service k t).mmu.read a =
      (c.mmu.writeIORegisterBit k.AddrRegInterruptFlag (k.flag t % 256) false).read a := by
  simp only [service, pushStack, Mmu.read_write]
  rw [if_neg (Ne.symm h2), if_neg (Ne.symm h1)]

end Cpu
end GGB.Hardware

namespace GGB.Hardware
namespace Cpu

open Instructions

/-- The flag register after the pending bit of `t` has been cleared. -/
theorem clear_pending_read_flag (k : Const) (hk : k.WellFormed) (m : Mmu) (t : Interrupt) :
    (m.writeIORegisterBit k.AddrRegInterruptFlag (k.flag t % 256) false).read
        k.AddrRegInterruptFlag =
      m.read k.AddrRegInterruptFlag &&& (k.flag t ^^^ 255) := by
  obtain ⟨_, _, _, hb, _, _, _⟩ := hk
  have hf : k.flag t % 256 = k.flag t := Nat.mod_eq_of_lt (Const.singleBit_lt (hb t))
  simp only [Mmu.writeIORegisterBit, Mmu.read_write, hf, if_true, Bool.false_eq_true, if_false]
  exact Nat.mod_eq_of_lt (Mmu.clear_bit_lt _ (hb t))

/-- The enable register is not touched by the clearing of a pending bit. -/
theorem clear_pending_read_enabled (k : Const) (hk : k.WellFormed) (m : Mmu) (t : Interrupt) :
    (m.writeIORegisterBit k.AddrRegInterruptFlag (k.flag t % 256) false).read
        k.AddrRegInterruptEnabled =
      m.read k.AddrRegInterruptEnabled := by
  obtain ⟨he, hf, hne, _, _, _, _⟩ := hk
  have h : k.AddrRegInterruptEnabled % 65536 ≠ k.AddrRegInterruptFlag % 65536 := by
    rw [Nat.mod_eq_of_lt he, Nat.mod_eq_of_lt hf]; exact hne
  simp only [Mmu.writeIORegisterBit, Mmu.read_write, Bool.false_eq_true, if_false, if_neg h]

/-- C2. Interrupt priority: when the master-interrupt-enable flag is set and
`t` is the highest source, in the order VBlank > LCD > Timer > Serial > Joypad,
among those whose enable and pending bits are both set (there may be two or
more of them), `handleInterrupts` returns true and the program counter
becomes the vector of `t`, which is the vector of no other source; the one
call `cycle()` makes from a halted state leaves that same program counter. -/
theorem interrupt_priority (k : Const) (hk : k.WellFormed) (c : Cpu)
    (hime : c.interruptMasterFlag = true) (t : Interrupt) (ht : c.firable k t = true)
    (hh : ∀ u, u.rank < t.rank → c.firable k u = false) :
    (c.handleInterrupts k).1 = true ∧ (c.handleInterrupts k).2.pc = k.vector t ∧
      (∀ u, u ≠ t → (c.handleInterrupts k).2.pc ≠ k.vector u) ∧
      ∀ run iset, c.halted = true → (c.cycle run k iset).2.pc = k.vector t := by
  have heq := handleInterrupts_wellFormed k hk c t ht hh
  rw [if_pos hime] at heq
  obtain ⟨_, _, _, _, _, hv, hinj⟩ := hk
  have hpc : (c.service k t).pc = k.vector t := Nat.mod_eq_of_lt (hv t).2
  refine ⟨by rw [heq], by rw [heq]; exact hpc, ?_, ?_⟩
  · intro u hu hcontra
    rw [heq] at hcontra
    exact hu (hinj u t (hcontra.symm.trans hpc))
  · intro run iset hhalt
    simp only [cycle, hhalt, heq, Bool.true_eq_false, if_false]
    rw [(demote_fields _).1, (reprime_fields _ _).1]
    exact hpc

/-- Instance of `interrupt_priority`: VBlank and Timer are both enabled and
pending, and VBlank is serviced. -/
theorem interrupt_priority_witness :
    Const.dmg.WellFormed ∧ Sample.cpuPending.interruptMasterFlag = true ∧
      Sample.cpuPending.firable Const.dmg .VBlank = true ∧
      Sample.cpuPending.firable Const.dmg .Timer = true ∧
      ((Sample.cpuPending.handleInterrupts Const.dmg).1 = true ∧
        (Sample.cpuPending.handleInterrupts Const.dmg).2.pc = Const.dmg.vector .VBlank ∧
        (∀ u, u ≠ Interrupt.VBlank →
          (Sample.cpuPending.handleInterrupts Const.dmg).2.pc ≠ Const.dmg.vector u) ∧
        ∀ run iset, Sample.cpuPending.halted = true →
          (Sample.cpuPending.cycle run Const.dmg iset).2.pc = Const.dmg.vector .VBlank) :=
  ⟨Const.dmg_wellFormed, by decide, by decide, by decide,
    interrupt_priority Const.dmg Const.dmg_wellFormed Sample.cpuPending (by decide) .VBlank
      (by decide) (fun u hu => by cases u <;> simp [Interrupt.rank] at hu)⟩

/-- C3 as stated fails: with the stack pointer at 0x0001 the push of the
program counter overwrites the enable register at 0xFFFF, so Timer, enabled
and pending before the call, is no longer enabled after it; with the stack
pointer at 0xFF11 the push overwrites the flag register at 0xFF0F. -/
theorem service_frame_counterexample :
    (({ Sample.cpuPending with sp := 0x0001, pc := 0x0200 } : Cpu).handleInterrupts
        Const.dmg).1 = true ∧
      ({ Sample.cpuPending with sp := 0x0001, pc := 0x0200 } : Cpu).mmu.read 0xFFFF = 0x05 ∧
      (({ Sample.cpuPending with sp := 0x0001, pc := 0x0200 } : Cpu).handleInterrupts
        Const.dmg).2.mmu.read 0xFFFF = 0x00 ∧
      ({ Sample.cpuPending with sp := 0x0001, pc := 0x0200 } : Cpu).firable
        Const.dmg .Timer = true ∧
      (({ Sample.cpuPending with sp := 0x0001, pc := 0x0200 } : Cpu).handleInterrupts
        Const.dmg).2.firable Const.dmg .Timer = false ∧
      (({ Sample.cpuPending with sp := 0xFF11, pc := 0x0213 } : Cpu).handleInterrupts
        Const.dmg).1 = true ∧
      ({ Sample.cpuPending with sp := 0xFF11, pc := 0x0213 } : Cpu).mmu.read 0xFF0F = 0x05 ∧
      (({ Sample.cpuPending with sp := 0xFF11, pc := 0x0213 } : Cpu).handleInterrupts
        Const.dmg).2.mmu.read 0xFF0F = 0x13 := by
  decide

/-- C3 (amended). Servicing clears exactly one pending bit: whenever
`handleInterrupts` services a source and neither byte of the pushed return
address (at `S-1` and `S-2` modulo 2^16) lands on the interrupt-flag or the
interrupt-enable register, afterwards the interrupt-flag register equals its
previous value with only the pending bit of the serviced source cleared and
the interrupt-enable register is unchanged, so every other source that was
pending and enabled before the call is still pending and enabled after it. -/
theorem service_clears_one_pending_bit (k : Const) (hk : k.WellFormed) (c : Cpu)
    (h : (c.handleInterrupts k).1 = true)
    (hf1 : (c.sp + 65536 - 1) % 65536 ≠ k.AddrRegInterruptFlag)
    (hf2 : (c.sp + 65536 - 2) % 65536 ≠ k.AddrRegInterruptFlag)
    (he1 : (c.sp + 65536 - 1) % 65536 ≠ k.AddrRegInterruptEnabled)
    (he2 : (c.sp + 65536 - 2) % 65536 ≠ k.AddrRegInterruptEnabled) :
    ∃ t, c.firable k t = true ∧ (∀ u, u.rank < t.rank → c.firable k u = false) ∧
      (c.handleInterrupts k).2.pc = k.vector t ∧
      (c.handleInterrupts k).2.mmu.read k.AddrRegInterruptFlag =
        c.mmu.read k.AddrRegInterruptFlag &&& (k.flag t ^^^ 255) ∧
      (c.handleInterrupts k).2.mmu.read k.AddrRegInterruptEnabled =
        c.mmu.read k.AddrRegInterruptEnabled ∧
      (c.handleInterrupts k).2.mmu.readIORegisterBit k.AddrRegInterruptFlag (k.flag t) = false ∧
      ∀ u, u ≠ t →
        (c.handleInterrupts k).2.mmu.readIORegisterBit k.AddrRegInterruptFlag (k.flag u) =
            c.mmu.readIORegisterBit k.AddrRegInterruptFlag (k.flag u) ∧
          (c.handleInterrupts k).2.mmu.readIORegisterBit k.AddrRegInterruptEnabled (k.flag u) =
            c.mmu.readIORegisterBit k.AddrRegInterruptEnabled (k.flag u) ∧
          (c.firable k u = true → (c.handleInterrupts k).2.firable k u = true) := by
  obtain ⟨t, ht, hh, _, heq⟩ := serviced_cases k hk c h
  have hk' := hk
  obtain ⟨hea, hfa, _, hb, hbinj, hv, _⟩ := hk'
  have hmf : k.AddrRegInterruptFlag % 65536 = k.AddrRegInterruptFlag := Nat.mod_eq_of_lt hfa
  have hme : k.AddrRegInterruptEnabled % 65536 = k.AddrRegInterruptEnabled :=
    Nat.mod_eq_of_lt hea
  have hIF : (c.service k t).mmu.read k.AddrRegInterruptFlag =
      c.mmu.read k.AddrRegInterruptFlag &&& (k.flag t ^^^ 255) := by
    rw [service_read k c t _ (by rw [hmf]; exact hf1) (by rw [hmf]; exact hf2)]
    exact clear_pending_read_flag k hk c.mmu t
  have hIE : (c.service k t).mmu.read k.AddrRegInterruptEnabled =
      c.mmu.read k.AddrRegInterruptEnabled := by
    rw [service_read k c t _ (by rw [hme]; exact he1) (by rw [hme]; exact he2)]
    exact clear_pending_read_enabled k hk c.mmu t
  have hother : ∀ u, u ≠ t →
      (c.service k t).mmu.readIORegisterBit k.AddrRegInterruptFlag (k.flag u) =
          c.mmu.readIORegisterBit k.AddrRegInterruptFlag (k.flag u) ∧
        (c.service k t).mmu.readIORegisterBit k.AddrRegInterruptEnabled (k.flag u) =
          c.mmu.readIORegisterBit k.AddrRegInterruptEnabled (k.flag u) := by
    intro u hu
    have hne : k.flag t ≠ k.flag u := fun hc => hu (hbinj t u hc).symm
    constructor
    · simp only [Mmu.readIORegisterBit, hIF, Mmu.clear_bit_other _ (hb t) (hb u) hne]
    · simp only [Mmu.readIORegisterBit, hIE]
  rw [heq]
  refine ⟨t, ht, hh, Nat.mod_eq_of_lt (hv t).2, hIF, hIE, ?_, ?_⟩
  · simp only [Mmu.readIORegisterBit, hIF, Mmu.clear_bit_self _ (hb t)]
    decide
  · intro u hu
    refine ⟨(hother u hu).1, (hother u hu).2, ?_⟩
    intro hfu
    simp only [firable] at hfu ⊢
    rw [(hother u hu).1, (hother u hu).2]
    exact hfu

/-- Instance of `service_clears_one_pending_bit`: the stack at 0xFFFE, with
VBlank and Timer enabled and pending. -/
theorem service_clears_one_pending_bit_witness :
    Const.dmg.WellFormed ∧ (Sample.cpuPending.handleInterrupts Const.dmg).1 = true ∧
      (Sample.cpuPending.sp + 65536 - 1) % 65536 ≠ Const.dmg.AddrRegInterruptFlag ∧
      (Sample.cpuPending.sp + 65536 - 2) % 65536 ≠ Const.dmg.AddrRegInterruptFlag ∧
      (Sample.cpuPending.sp + 65536 - 1) % 65536 ≠ Const.dmg.AddrRegInterruptEnabled ∧
      (Sample.cpuPending.sp + 65536 - 2) % 65536 ≠ Const.dmg.AddrRegInterruptEnabled ∧
      ∃ t, Sample.cpuPending.firable Const.dmg t = true ∧
        (∀ u, u.rank < t.rank → Sample.cpuPending.firable Const.dmg u = false) ∧
        (Sample.cpuPending.handleInterrupts Const.dmg).2.pc = Const.dmg.vector t ∧
        (Sample.cpuPending.handleInterrupts Const.dmg).2.mmu.read
            Const.dmg.AddrRegInterruptFlag =
          Sample.cpuPending.mmu.read Const.dmg.AddrRegInterruptFlag &&&
            (Const.dmg.flag t ^^^ 255) ∧
        (Sample.cpuPending.handleInterrupts Const.dmg).2.mmu.read
            Const.dmg.AddrRegInterruptEnabled =
          Sample.cpuPending.mmu.read Const.dmg.AddrRegInterruptEnabled ∧
        (Sample.cpuPending.handleInterrupts Const.dmg).2.mmu.readIORegisterBit
          Const.dmg.AddrRegInterruptFlag (Const.dmg.flag t) = false ∧
        ∀ u, u ≠ t →
          (Sample.cpuPending.handleInterrupts Const.dmg).2.mmu.readIORegisterBit
              Const.dmg.AddrRegInterruptFlag (Const.dmg.flag u) =
            Sample.cpuPending.mmu.readIORegisterBit Const.dmg.AddrRegInterruptFlag
              (Const.dmg.flag u) ∧
          (Sample.cpuPending.handleInterrupts Const.dmg).2.mmu.readIORegisterBit
              Const.dmg.AddrRegInterruptEnabled (Const.dmg.flag u) =
            Sample.cpuPending.mmu.readIORegisterBit Const.dmg.AddrRegInterruptEnabled
              (Const.dmg.flag u) ∧
          (Sample.cpuPending.firable Const.dmg u = true →
            (Sample.cpuPending.handleInterrupts Const.dmg).2.firable Const.dmg u = true) :=
  ⟨Const.dmg_wellFormed, by decide, by decide, by decide, by decide, by decide,
    service_clears_one_pending_bit Const.dmg Const.dmg_wellFormed Sample.cpuPending
      (by decide) (by decide) (by decide) (by decide) (by decide)⟩

end Cpu
end GGB.Hardware

namespace GGB.Hardware
namespace Cpu

open Instructions

/-- C4. Servicing saves the return address: whenever `handleInterrupts`
returns true from a state with 16-bit program counter `P` and 16-bit stack
pointer `S`, afterwards the master-interrupt-enable flag is clear, the
program counter is the vector of the serviced source (the highest firable
one), the stack pointer is `S-2` modulo 2^16, and an immediately following
`popStack()` returns exactly `P` and restores the stack pointer to `S`. -/
theorem service_saves_return_address (k : Const) (hk : k.WellFormed) (c : Cpu)
    (hp : c.pc < 65536) (hs : c.sp < 65536) (h : (c.handleInterrupts k).1 = true) :
    (c.handleInterrupts k).2.interruptMasterFlag = false ∧
      (∃ t, c.firable k t = true ∧ (∀ u, u.rank < t.rank → c.firable k u = false) ∧
        (c.handleInterrupts k).2.pc = k.vector t) ∧
      (c.handleInterrupts k).2.sp = (c.sp + 65536 - 2) % 65536 ∧
      ((c.handleInterrupts k).2.popStack).1 = c.pc ∧
      ((c.handleInterrupts k).2.popStack).2.sp = c.sp := by
  obtain ⟨t, ht, hh, _, heq⟩ := serviced_cases k hk c h
  obtain ⟨_, _, _, _, _, hv, _⟩ := hk
  rw [heq]
  refine ⟨rfl, ⟨t, ht, hh, Nat.mod_eq_of_lt (hv t).2⟩, rfl, service_popStack k c t hp, ?_⟩
  show ((c.sp + 65536 - 2) % 65536 + 2) % 65536 = c.sp
  omega

/-- Instance of `service_saves_return_address`: the return address 0x0150 is
pushed from the stack pointer 0xFFFE. -/
theorem service_saves_return_address_witness :
    Const.dmg.WellFormed ∧ Sample.cpuPending.pc < 65536 ∧ Sample.cpuPending.sp < 65536 ∧
      (Sample.cpuPending.handleInterrupts Const.dmg).1 = true ∧
      ((Sample.cpuPending.handleInterrupts Const.dmg).2.interruptMasterFlag = false ∧
        (∃ t, Sample.cpuPending.firable Const.dmg t = true ∧
          (∀ u, u.rank < t.rank → Sample.cpuPending.firable Const.dmg u = false) ∧
          (Sample.cpuPending.handleInterrupts Const.dmg).2.pc = Const.dmg.vector t) ∧
        (Sample.cpuPending.handleInterrupts Const.dmg).2.sp =
          (Sample.cpuPending.sp + 65536 - 2) % 65536 ∧
        ((Sample.cpuPending.handleInterrupts Const.dmg).2.popStack).1 = Sample.cpuPending.pc ∧
        ((Sample.cpuPending.handleInterrupts Const.dmg).2.popStack).2.sp =
          Sample.cpuPending.sp) :=
  ⟨Const.dmg_wellFormed, by decide, by decide, by decide,
    service_saves_return_address Const.dmg Const.dmg_wellFormed Sample.cpuPending
      (by decide) (by decide) (by decide)⟩

/-- C6. Serviced exactly when firable and enabled: `handleInterrupts` returns
true if and only if the master-interrupt-enable flag is set and at least one
of the five sources has both its enable bit and its pending bit set; in every
other state it returns false. -/
theorem serviced_iff (k : Const) (hk : k.WellFormed) (c : Cpu) :
    ((c.handleInterrupts k).1 = true ↔
        c.interruptMasterFlag = true ∧ ∃ t, c.firable k t = true) ∧
      (¬ (c.interruptMasterFlag = true ∧ ∃ t, c.firable k t = true) →
        (c.handleInterrupts k).1 = false) := by
  have hiff : (c.handleInterrupts k).1 = true ↔
      c.interruptMasterFlag = true ∧ ∃ t, c.firable k t = true := by
    constructor
    · intro h
      obtain ⟨t, ht, _, hime, _⟩ := serviced_cases k hk c h
      exact ⟨hime, t, ht⟩
    · rintro ⟨hime, hex⟩
      obtain ⟨t, ht, hh⟩ := exists_highest k c hex
      rw [handleInterrupts_wellFormed k hk c t ht hh, if_pos hime]
  refine ⟨hiff, fun hn => ?_⟩
  cases hr : (c.handleInterrupts k).1
  · rfl
  · exact absurd (hiff.mp hr) hn

/-- Instance of `serviced_iff` at a state with two firable sources. -/
theorem serviced_iff_witness :
    Const.dmg.WellFormed ∧
      (((Sample.cpuPending.handleInterrupts Const.dmg).1 = true ↔
          Sample.cpuPending.interruptMasterFlag = true ∧
            ∃ t, Sample.cpuPending.firable Const.dmg t = true) ∧
        (¬ (Sample.cpuPending.interruptMasterFlag = true ∧
            ∃ t, Sample.cpuPending.firable Const.dmg t = true) →
          (Sample.cpuPending.handleInterrupts Const.dmg).1 = false)) :=
  ⟨Const.dmg_wellFormed, serviced_iff Const.dmg Const.dmg_wellFormed Sample.cpuPending⟩

end Cpu
end GGB.Hardware

namespace GGB.Hardware
namespace Cpu

/-- Instance of `stack_round_trip`: the word 0xBEEF pushed from the stack
pointer 0xFFFE. -/
theorem stack_round_trip_witness :
    (0xBEEF < 65536 ∧ Sample.cpu.sp < 65536) ∧
      ((Sample.cpu.pushStack 0xBEEF).popStack).1 = 0xBEEF ∧
      ((Sample.cpu.pushStack 0xBEEF).popStack).2.sp = Sample.cpu.sp :=
  ⟨⟨by decide, by decide⟩, stack_round_trip Sample.cpu 0xBEEF (by decide) (by decide)⟩

end Cpu
end GGB.Hardware

/-! ## The cycle operation -/

namespace GGB.Hardware
namespace Cpu

open Instructions

/-- The two exits of `handleInterrupts`, in terms of the selection. -/
theorem handleInterrupts_shape (k : Const) (c : Cpu) :
    c.handleInterrupts k =
      if (c.selectInterrupt k).1 ≠ 0 ∧ c.interruptMasterFlag = true then
        (true,
          { ({ c with
                halted := (c.selectInterrupt k).2.2
                interruptMasterFlag := false
                mmu := c.mmu.writeIORegisterBit k.AddrRegInterruptFlag
                  (c.selectInterrupt k).2.1 false } : Cpu).pushStack
              c.pc with pc := (c.selectInterrupt k).1 })
      else (false, { c with halted := (c.selectInterrupt k).2.2 }) :=
  rfl

/-- The selection either clears `halted` or leaves it as it is. -/
theorem selectInterrupt_halted (k : Const) (c : Cpu) :
    (c.selectInterrupt k).2.2 = false ∨ (c.selectInterrupt k).2.2 = c.halted := by
  unfold selectInterrupt
  simp only
  split_ifs
  · exact Or.inl rfl
  · exact Or.inl rfl
  · exact Or.inl rfl
  · exact Or.inl rfl
  · exact Or.inl rfl
  · exact Or.inr rfl

/-- A call of `handleInterrupts` that returns false changes at most
`halted`. -/
theorem handleInterrupts_not_serviced (k : Const) (c : Cpu)
    (h : (c.handleInterrupts k).1 = false) :
    (c.handleInterrupts k).2 = { c with halted := (c.selectInterrupt k).2.2 } := by
  rw [handleInterrupts_shape] at h ⊢
  by_cases hc : (c.selectInterrupt k).1 ≠ 0 ∧ c.interruptMasterFlag = true
  · rw [if_pos hc] at h
    exact Bool.noConfusion (h : true = false)
  · rw [if_neg hc]

/-- The run mode is not written by `handleInterrupts`. -/
theorem handleInterrupts_state (k : Const) (c : Cpu) :
    (c.handleInterrupts k).2.state = c.state := by
  rw [handleInterrupts_shape]
  by_cases hc : (c.selectInterrupt k).1 ≠ 0 ∧ c.interruptMasterFlag = true
  · rw [if_pos hc]
    simp only [pushStack]
  · rw [if_neg hc]

/-- With the master flag clear and a firable source, `handleInterrupts` only
clears `halted`. -/
theorem handleInterrupts_masked (k : Const) (c : Cpu) (hime : c.interruptMasterFlag = false)
    (hex : ∃ t, c.firable k t = true) :
    c.handleInterrupts k = (false, { c with halted := false }) := by
  obtain ⟨t, ht, hh⟩ := exists_highest k c hex
  rw [handleInterrupts_highest k c t ht hh, hime]
  simp

/-- The result of `cycle` from a halted state. -/
theorem cycle_halted (run : Nat → Cpu → Nat × Cpu) (k : Const) (iset : InstructionSet) (c : Cpu)
    (hh : c.halted = true) :
    c.cycle run k iset = (0, demote (reprime iset (c.handleInterrupts k))) := by
  simp only [cycle, hh, Bool.true_eq_false, if_false]

/-- The result of `cycle` from a state that is not halted. -/
theorem cycle_running (run : Nat → Cpu → Nat × Cpu) (k : Const) (iset : InstructionSet) (c : Cpu)
    (hh : c.halted = false) :
    c.cycle run k iset =
      ((c.executeStep run iset).1,
        demote (reprime iset ((c.executeStep run iset).2.handleInterrupts k))) := by
  simp only [cycle, hh, if_true]

/-- The run mode after `cycle`, for routines that do not write it. -/
theorem cycle_state (run : Nat → Cpu → Nat × Cpu) (k : Const) (iset : InstructionSet)
    (hrun : ∀ id s, (run id s).2.state = s.state) (c : Cpu) :
    (c.cycle run k iset).2.state =
      if c.state = Enum.CpuState.STEP then Enum.CpuState.PAUSED else c.state := by
  have h1 : (if c.halted = false then c.executeStep run iset else (0, c)).2.state = c.state := by
    split
    · show (run _ c.fetch).2.state = c.state
      rw [hrun]; rfl
    · rfl
  have h2 : (reprime iset
      ((if c.halted = false then c.executeStep run iset else (0, c)).2.handleInterrupts k)).state =
      c.state := by
    rw [(reprime_fields _ _).2.2.2.2.2.2.1, handleInterrupts_state, h1]
  show (demote _).state = _
  unfold demote
  rw [h2]
  split
  · rfl
  · exact h2

/-- The run mode after any number of `cycle` calls started in `RUNNING`. -/
theorem cycles_running (run : Nat → Cpu → Nat × Cpu) (k : Const) (iset : InstructionSet)
    (hrun : ∀ id s, (run id s).2.state = s.state) (n : Nat) :
    ∀ c : Cpu, c.state = Enum.CpuState.RUNNING →
      (cycles run k iset n c).state = Enum.CpuState.RUNNING := by
  induction n with
  | zero => intro c hc; exact hc
  | succ n ih =>
    intro c hc
    apply ih
    rw [cycle_state run k iset hrun c, hc]
    rfl

/-- C5. Wake without service: from a halted state with the
master-interrupt-enable flag clear and at least one source both enabled and
pending, one `cycle()` call clears the halted state, returns 0, and leaves the
program counter, the stack pointer, all of memory (nothing is pushed) and the
interrupt-flag register (no pending bit is cleared) unchanged. -/
theorem wake_without_service (run : Nat → Cpu → Nat × Cpu) (k : Const) (iset : InstructionSet)
    (c : Cpu) (hh : c.halted = true) (hime : c.interruptMasterFlag = false)
    (hex : ∃ t, c.firable k t = true) :
    (c.cycle run k iset).2.halted = false ∧ (c.cycle run k iset).1 = 0 ∧
      (c.cycle run k iset).2.pc = c.pc ∧ (c.cycle run k iset).2.sp = c.sp ∧
      (c.cycle run k iset).2.mmu = c.mmu ∧
      (c.cycle run k iset).2.mmu.read k.AddrRegInterruptFlag =
        c.mmu.read k.AddrRegInterruptFlag := by
  rw [cycle_halted run k iset c hh, handleInterrupts_masked k c hime hex]
  obtain ⟨d1, d2, _, _, d5, _, _, _, d9⟩ := demote_fields (reprime iset (false, { c with halted := false }))
  obtain ⟨r1, r2, _, _, r5, _, _, _, r9⟩ := reprime_fields iset (false, { c with halted := false })
  refine ⟨?_, rfl, ?_, ?_, ?_, ?_⟩
  · show (demote _).halted = false
    rw [d5, r5]
  · show (demote _).pc = c.pc
    rw [d1, r1]
  · show (demote _).sp = c.sp
    rw [d2, r2]
  · show (demote _).mmu = c.mmu
    rw [d9, r9]
  · show (demote _).mmu.read _ = _
    rw [d9, r9]

/-- Instance of `wake_without_service`: a halted machine with the master flag
clear while VBlank and Timer are enabled and pending. -/
theorem wake_without_service_witness :
    Sample.cpuHalted.halted = true ∧ Sample.cpuHalted.interruptMasterFlag = false ∧
      (∃ t, Sample.cpuHalted.firable Const.dmg t = true) ∧
      ((Sample.cpuHalted.cycle Sample.run Const.dmg Sample.iset).2.halted = false ∧
        (Sample.cpuHalted.cycle Sample.run Const.dmg Sample.iset).1 = 0 ∧
        (Sample.cpuHalted.cycle Sample.run Const.dmg Sample.iset).2.pc = Sample.cpuHalted.pc ∧
        (Sample.cpuHalted.cycle Sample.run Const.dmg Sample.iset).2.sp = Sample.cpuHalted.sp ∧
        (Sample.cpuHalted.cycle Sample.run Const.dmg Sample.iset).2.mmu = Sample.cpuHalted.mmu ∧
        (Sample.cpuHalted.cycle Sample.run Const.dmg Sample.iset).2.mmu.read
            Const.dmg.AddrRegInterruptFlag =
          Sample.cpuHalted.mmu.read Const.dmg.AddrRegInterruptFlag) :=
  ⟨by decide, by decide, ⟨.VBlank, by decide⟩,
    wake_without_service Sample.run Const.dmg Sample.iset Sample.cpuHalted (by decide)
      (by decide) ⟨.VBlank, by decide⟩⟩

end Cpu
end GGB.Hardware

namespace GGB.Hardware
namespace Cpu

open Instructions

/-- The block of `cycle` that executes an instruction uses the routine only
through its result on the state `fetch`. -/
theorem executeStep_eq (run : Nat → Cpu → Nat × Cpu) (iset : InstructionSet) (c : Cpu) :
    c.executeStep run iset =
      (fun r : Nat × Cpu =>
        (r.1 % 256, { r.2 with nextInstruction := r.2.parseNextInstruction iset }))
        (run c.nextInstruction.definition.executeInterpreter c.fetch) :=
  rfl

/-- The program counter after a `cycle` that executes an instruction and
services no interrupt is the one the routine left. -/
theorem cycle_pc_not_serviced (run : Nat → Cpu → Nat × Cpu) (k : Const) (iset : InstructionSet)
    (c : Cpu) (hh : c.halted = false)
    (hn : ((c.executeStep run iset).2.handleInterrupts k).1 = false) :
    (c.cycle run k iset).2.pc =
      (run c.nextInstruction.definition.executeInterpreter c.fetch).2.pc := by
  have hb := handleInterrupts_not_serviced k _ hn
  rw [cycle_running run k iset c hh]
  show (demote _).pc = _
  rw [(demote_fields _).1, (reprime_fields _ _).1, hb]
  rfl

/-- C7. Advance before effect: from a state that is not halted, with program
counter `P` and a pipelined next instruction of declared length `L`, `cycle()`
invokes the routine of that instruction on the state `fetch`, whose program
counter is already `P+L` modulo 2^16: the call depends on the routine only
through its result on that state.  Without a serviced interrupt the final
program counter is the one the routine left, so a change made by the routine
comes on top of the advance, and it is exactly `P+L` modulo 2^16 when the
routine does not touch the program counter. -/
theorem advance_before_effect (run : Nat → Cpu → Nat × Cpu) (k : Const) (iset : InstructionSet)
    (c : Cpu) (hh : c.halted = false) :
    c.fetch.pc = (c.pc + c.nextInstruction.definition.length) % 65536 ∧
      (∀ run2 : Nat → Cpu → Nat × Cpu,
        run2 c.nextInstruction.definition.executeInterpreter c.fetch =
            run c.nextInstruction.definition.executeInterpreter c.fetch →
          c.cycle run2 k iset = c.cycle run k iset) ∧
      (((c.executeStep run iset).2.handleInterrupts k).1 = false →
        (c.cycle run k iset).2.pc =
          (run c.nextInstruction.definition.executeInterpreter c.fetch).2.pc) ∧
      ((∀ s, (run c.nextInstruction.definition.executeInterpreter s).2.pc = s.pc) →
        ((c.executeStep run iset).2.handleInterrupts k).1 = false →
        (c.cycle run k iset).2.pc = (c.pc + c.nextInstruction.definition.length) % 65536) := by
  refine ⟨rfl, ?_, cycle_pc_not_serviced run k iset c hh, ?_⟩
  · intro run2 h2
    have he : c.executeStep run2 iset = c.executeStep run iset := by
      rw [executeStep_eq run2 iset c, executeStep_eq run iset c, h2]
    rw [cycle_running run2 k iset c hh, cycle_running run k iset c hh, he]
  · intro hpc hn
    rw [cycle_pc_not_serviced run k iset c hh hn, hpc]
    rfl

/-- Instance of `advance_before_effect` at a running machine. -/
theorem advance_before_effect_witness :
    Sample.cpu.halted = false ∧
      (Sample.cpu.fetch.pc =
          (Sample.cpu.pc + Sample.cpu.nextInstruction.definition.length) % 65536 ∧
        (∀ run2 : Nat → Cpu → Nat × Cpu,
          run2 Sample.cpu.nextInstruction.definition.executeInterpreter Sample.cpu.fetch =
              Sample.run Sample.cpu.nextInstruction.definition.executeInterpreter
                Sample.cpu.fetch →
            Sample.cpu.cycle run2 Const.dmg Sample.iset =
              Sample.cpu.cycle Sample.run Const.dmg Sample.iset) ∧
        (((Sample.cpu.executeStep Sample.run Sample.iset).2.handleInterrupts Const.dmg).1 =
            false →
          (Sample.cpu.cycle Sample.run Const.dmg Sample.iset).2.pc =
            (Sample.run Sample.cpu.nextInstruction.definition.executeInterpreter
              Sample.cpu.fetch).2.pc) ∧
        ((∀ s, (Sample.run Sample.cpu.nextInstruction.definition.executeInterpreter s).2.pc =
            s.pc) →
          ((Sample.cpu.executeStep Sample.run Sample.iset).2.handleInterrupts Const.dmg).1 =
            false →
          (Sample.cpu.cycle Sample.run Const.dmg Sample.iset).2.pc =
            (Sample.cpu.pc + Sample.cpu.nextInstruction.definition.length) % 65536)) :=
  ⟨by decide, advance_before_effect Sample.run Const.dmg Sample.iset Sample.cpu (by decide)⟩

/-- C8. No-op scenario: when the table entry for opcode 0x00 has length 1,
cost 4 and a routine that changes nothing and returns 4, then from every
state that is not halted, with program counter `P`, whose pipelined next
instruction is that entry and in which no interrupt is serviced, one `cycle()`
call returns 4, leaves the program counter at `P+1` (modulo 2^16) and leaves
the stack pointer, the general registers, the flag register, the halted flag,
the master-interrupt-enable flag and memory unchanged. -/
theorem nop_scenario (run : Nat → Cpu → Nat × Cpu) (k : Const) (iset : InstructionSet)
    (c : Cpu) (hd : c.nextInstruction.definition = iset.set 0x00)
    (hl : (iset.set 0x00).length = 1) (_hc : (iset.set 0x00).cycles = 4)
    (hrun : ∀ s, run (iset.set 0x00).executeInterpreter s = (4, s))
    (hh : c.halted = false)
    (hn : ((c.executeStep run iset).2.handleInterrupts k).1 = false) :
    (c.cycle run k iset).1 = 4 ∧ (c.cycle run k iset).2.pc = (c.pc + 1) % 65536 ∧
      (c.cycle run k iset).2.sp = c.sp ∧ (c.cycle run k iset).2.general = c.general ∧
      (c.cycle run k iset).2.flags = c.flags ∧ (c.cycle run k iset).2.halted = c.halted ∧
      (c.cycle run k iset).2.interruptMasterFlag = c.interruptMasterFlag ∧
      (c.cycle run k iset).2.mmu = c.mmu := by
  have hex : c.executeStep run iset =
      (4, { c.fetch with nextInstruction := c.fetch.parseNextInstruction iset }) := by
    rw [executeStep_eq run iset c, hd, hrun]
    rfl
  have hfp : c.fetch.pc = (c.pc + 1) % 65536 := by
    show (c.pc + c.nextInstruction.definition.length) % 65536 = _
    rw [hd, hl]
  have hb := handleInterrupts_not_serviced k _ hn
  have hsel := selectInterrupt_halted k (c.executeStep run iset).2
  have hhalt : (c.executeStep run iset).2.halted = c.halted := by rw [hex]; rfl
  have hfin : ((c.executeStep run iset).2.selectInterrupt k).2.2 = c.halted := by
    rcases hsel with h1 | h1
    · rw [h1, hh]
    · rw [h1, hhalt]
  obtain ⟨d1, d2, d3, d4, d5, d6, _, _, d9⟩ :=
    demote_fields (reprime iset ((c.executeStep run iset).2.handleInterrupts k))
  obtain ⟨r1, r2, r3, r4, r5, r6, _, _, r9⟩ :=
    reprime_fields iset ((c.executeStep run iset).2.handleInterrupts k)
  rw [cycle_running run k iset c hh]
  refine ⟨by rw [hex], ?_, ?_, ?_, ?_, ?_, ?_, ?_⟩
  · show (demote _).pc = _
    rw [d1, r1, hb, hex]; exact hfp
  · show (demote _).sp = _
    rw [d2, r2, hb, hex]; rfl
  · show (demote _).general = _
    rw [d3, r3, hb, hex]; rfl
  · show (demote _).flags = _
    rw [d4, r4, hb, hex]; rfl
  · show (demote _).halted = _
    rw [d5, r5, hb]; exact hfin
  · show (demote _).interruptMasterFlag = _
    rw [d6, r6, hb, hex]; rfl
  · show (demote _).mmu = _
    rw [d9, r9, hb, hex]; rfl

/-- Instance of `nop_scenario`: the table maps opcode 0x00 to the no-op
entry and no interrupt is enabled. -/
theorem nop_scenario_witness :
    Sample.cpu.nextInstruction.definition = Sample.iset.set 0x00 ∧
      (Sample.iset.set 0x00).length = 1 ∧ (Sample.iset.set 0x00).cycles = 4 ∧
      (∀ s, Sample.run (Sample.iset.set 0x00).executeInterpreter s = (4, s)) ∧
      Sample.cpu.halted = false ∧
      ((Sample.cpu.executeStep Sample.run Sample.iset).2.handleInterrupts Const.dmg).1 = false ∧
      ((Sample.cpu.cycle Sample.run Const.dmg Sample.iset).1 = 4 ∧
        (Sample.cpu.cycle Sample.run Const.dmg Sample.iset).2.pc =
          (Sample.cpu.pc + 1) % 65536 ∧
        (Sample.cpu.cycle Sample.run Const.dmg Sample.iset).2.sp = Sample.cpu.sp ∧
        (Sample.cpu.cycle Sample.run Const.dmg Sample.iset).2.general = Sample.cpu.general ∧
        (Sample.cpu.cycle Sample.run Const.dmg Sample.iset).2.flags = Sample.cpu.flags ∧
        (Sample.cpu.cycle Sample.run Const.dmg Sample.iset).2.halted = Sample.cpu.halted ∧
        (Sample.cpu.cycle Sample.run Const.dmg Sample.iset).2.interruptMasterFlag =
          Sample.cpu.interruptMasterFlag ∧
        (Sample.cpu.cycle Sample.run Const.dmg Sample.iset).2.mmu = Sample.cpu.mmu) :=
  ⟨by decide, by decide, by decide, fun _ => rfl, by decide, by decide,
    nop_scenario Sample.run Const.dmg Sample.iset Sample.cpu (by decide) (by decide)
      (by decide) (fun _ => rfl) (by decide) (by decide)⟩

/-- C9. Run-mode transitions: for every state and every set of routines that
do not write the run mode, one `cycle()` call started in `STEP` ends in
`PAUSED`, one started in `RUNNING` ends in `RUNNING` and one started in
`PAUSED` ends in `PAUSED`; hence any number of consecutive `cycle()` calls
started in `RUNNING` leaves the mode `RUNNING`. -/
theorem run_mode_transitions (run : Nat → Cpu → Nat × Cpu) (k : Const) (iset : InstructionSet)
    (hrun : ∀ id s, (run id s).2.state = s.state) (c : Cpu) :
    (c.state = Enum.CpuState.STEP → (c.cycle run k iset).2.state = Enum.CpuState.PAUSED) ∧
      (c.state = Enum.CpuState.RUNNING →
        (c.cycle run k iset).2.state = Enum.CpuState.RUNNING) ∧
      (c.state = Enum.CpuState.PAUSED → (c.cycle run k iset).2.state = Enum.CpuState.PAUSED) ∧
      (c.state = Enum.CpuState.RUNNING →
        ∀ n, (cycles run k iset n c).state = Enum.CpuState.RUNNING) := by
  refine ⟨?_, ?_, ?_, ?_⟩
  · intro h
    rw [cycle_state run k iset hrun c, h]
    rfl
  · intro h
    rw [cycle_state run k iset hrun c, h]
    rfl
  · intro h
    rw [cycle_state run k iset hrun c, h]
    rfl
  · intro h n
    exact cycles_running run k iset hrun n c h

/-- Instance of `run_mode_transitions` with routines that change nothing. -/
theorem run_mode_transitions_witness :
    (∀ id s, (Sample.run id s).2.state = s.state) ∧
      ((Sample.cpu.state = Enum.CpuState.STEP →
          (Sample.cpu.cycle Sample.run Const.dmg Sample.iset).2.state = Enum.CpuState.PAUSED) ∧
        (Sample.cpu.state = Enum.CpuState.RUNNING →
          (Sample.cpu.cycle Sample.run Const.dmg Sample.iset).2.state =
            Enum.CpuState.RUNNING) ∧
        (Sample.cpu.state = Enum.CpuState.PAUSED →
          (Sample.cpu.cycle Sample.run Const.dmg Sample.iset).2.state =
            Enum.CpuState.PAUSED) ∧
        (Sample.cpu.state = Enum.CpuState.RUNNING →
          ∀ n, (cycles Sample.run Const.dmg Sample.iset n Sample.cpu).state =
            Enum.CpuState.RUNNING)) :=
  ⟨fun _ _ => rfl,
    run_mode_transitions Sample.run Const.dmg Sample.iset (fun _ _ => rfl) Sample.cpu⟩

end Cpu
end GGB.Hardware

/-! ## Sample ring buffer: refinement of a list queue -/

namespace GGB.Hardware
namespace Audio
namespace RingBuffer

variable {T : Type}

/-- The successor of an index, wrapping at the capacity. -/
theorem succ_mod {t cap : Nat} (h : t < cap) :
    (t + 1) % cap = if t + 1 = cap then 0 else t + 1 := by
  split
  · rename_i he
    rw [he, Nat.mod_self]
  · exact Nat.mod_eq_of_lt (by omega)

/-- An index below twice the capacity, reduced. -/
theorem mod_of_lt_two {a cap : Nat} (h : a < 2 * cap) :
    a % cap = if a < cap then a else a - cap := by
  split
  · rename_i hl
    exact Nat.mod_eq_of_lt hl
  · rename_i hl
    rw [Nat.mod_eq_sub_mod (by omega)]
    exact Nat.mod_eq_of_lt (by omega)

/-- The number of items read by `slots`. -/
theorem slots_length (buf : Nat → T) (cap : Nat) (n : Nat) :
    ∀ start, (slots buf cap start n).length = n := by
  induction n with
  | zero => intro start; rfl
  | succ n ih => intro start; simp [slots, ih]

/-- Writing the slot that lies `n` steps after `start` appends the written
item to the `n` items read from `start`. -/
theorem slots_write (buf : Nat → T) (cap head : Nat) (x : T) (n : Nat) :
    ∀ start, start < cap → n < cap → (start + n) % cap = head →
      slots (fun i => if i = head then x else buf i) cap start (n + 1) =
        slots buf cap start n ++ [x] := by
  induction n with
  | zero =>
    intro start hs _ hr
    rw [Nat.add_zero, Nat.mod_eq_of_lt hs] at hr
    simp [slots, hr]
  | succ n ih =>
    intro start hs hn hr
    have hlt : (start + 1) % cap < cap := Nat.mod_lt _ (by omega)
    have hr2 : ((start + 1) % cap + n) % cap = head := by
      rw [Nat.mod_add_mod, ← hr]
      congr 1
      omega
    have hne : start ≠ head := by
      rw [← hr, mod_of_lt_two (by omega)]
      split <;> omega
    have ih2 := ih ((start + 1) % cap) hlt (by omega) hr2
    show (if start = head then x else buf start) ::
        slots (fun i => if i = head then x else buf i) cap ((start + 1) % cap) (n + 1) =
      (buf start :: slots buf cap ((start + 1) % cap) n) ++ [x]
    rw [ih2, if_neg hne]
    rfl

/-- A freshly built buffer of capacity at least 1 satisfies the invariant. -/
theorem inv_create (size : Nat) (hsize : 1 ≤ size) (init : Nat → T) :
    (create size init).Inv :=
  ⟨hsize, hsize, fun h => Bool.noConfusion h⟩

/-- The size of a buffer that is not full, and where its head lies. -/
theorem size_not_full (rb : RingBuffer T) (hinv : rb.Inv) (hf : rb.full_ = false) :
    rb.size < rb.max_size_ ∧ (rb.tail_ + rb.size) % rb.max_size_ = rb.head_ := by
  obtain ⟨buf, head, tail, cap, full⟩ := rb
  obtain ⟨hh, ht, _⟩ := hinv
  simp only at hh ht hf
  subst hf
  simp only [size, if_true]
  split
  · rename_i hge
    refine ⟨by omega, ?_⟩
    rw [Nat.add_sub_cancel' hge]
    exact Nat.mod_eq_of_lt hh
  · rename_i hlt
    refine ⟨by omega, ?_⟩
    have : tail + (cap + head - tail) = head + cap := by omega
    rw [this, Nat.add_mod_right]
    exact Nat.mod_eq_of_lt hh

/-- The size after `put` on a buffer that is not full. -/
theorem size_put_not_full (rb : RingBuffer T) (hinv : rb.Inv) (hf : rb.full_ = false) (x : T) :
    (rb.put x).size = rb.size + 1 := by
  obtain ⟨buf, head, tail, cap, full⟩ := rb
  obtain ⟨hh, ht, _⟩ := hinv
  simp only at hh ht hf
  subst hf
  simp only [size, put, Bool.false_eq_true, if_false, if_true, succ_mod hh,
    decide_eq_false_iff_not]
  split_ifs <;> omega

/-- The state after `put` on a full buffer. -/
theorem put_full (rb : RingBuffer T) (hinv : rb.Inv) (hf : rb.full_ = true) (x : T) :
    rb.put x =
      { buf_ := fun i => if i = rb.tail_ then x else rb.buf_ i
        head_ := (rb.tail_ + 1) % rb.max_size_
        tail_ := (rb.tail_ + 1) % rb.max_size_
        max_size_ := rb.max_size_
        full_ := true } := by
  obtain ⟨buf, head, tail, cap, full⟩ := rb
  obtain ⟨_, _, hft⟩ := hinv
  simp only at hf hft
  subst hf
  have hht : head = tail := hft rfl
  subst hht
  simp [put]

/-- The invariant is preserved by `put`. -/
theorem inv_put (rb : RingBuffer T) (hinv : rb.Inv) (x : T) : (rb.put x).Inv := by
  obtain ⟨hh, ht, _⟩ := hinv
  have hpos : 0 < rb.max_size_ := by omega
  refine ⟨Nat.mod_lt _ hpos, ?_, ?_⟩
  · show (if rb.full_ = true then (rb.tail_ + 1) % rb.max_size_ else rb.tail_) < rb.max_size_
    split
    · exact Nat.mod_lt _ hpos
    · exact ht
  · intro h
    exact of_decide_eq_true h

/-- The invariant is preserved by `get`. -/
theorem inv_get [Inhabited T] (rb : RingBuffer T) (hinv : rb.Inv) : rb.get.2.Inv := by
  obtain ⟨hh, ht, hf⟩ := hinv
  unfold get
  split
  · exact ⟨hh, ht, hf⟩
  · exact ⟨hh, Nat.mod_lt _ (by omega), fun h => Bool.noConfusion h⟩

/-- The invariant is preserved by `reset`. -/
theorem inv_reset (rb : RingBuffer T) (hinv : rb.Inv) : rb.reset.Inv :=
  ⟨hinv.2.1, hinv.2.1, fun h => Bool.noConfusion h⟩

/-- Under the invariant `empty()` holds exactly when `size()` is 0. -/
theorem empty_iff_size (rb : RingBuffer T) (hinv : rb.Inv) :
    rb.empty = true ↔ rb.size = 0 := by
  obtain ⟨buf, head, tail, cap, full⟩ := rb
  obtain ⟨hh, ht, hf⟩ := hinv
  simp only at hh ht hf
  cases full
  · simp only [empty, size, Bool.not_false, Bool.true_and, decide_eq_true_eq, if_true]
    split <;> omega
  · simp only [empty, size, Bool.not_true, Bool.false_and, Bool.true_eq_false, if_false]
    constructor
    · intro h; exact Bool.noConfusion h
    · intro h; omega

/-- The size after `get` on a buffer that is not empty. -/
theorem size_get [Inhabited T] (rb : RingBuffer T) (hinv : rb.Inv) (he : rb.empty = false) :
    rb.get.2.size + 1 = rb.size := by
  obtain ⟨buf, head, tail, cap, full⟩ := rb
  obtain ⟨hh, ht, hf⟩ := hinv
  simp only at hh ht hf
  cases full
  · simp only [empty, Bool.not_false, Bool.true_and, decide_eq_false_iff_not] at he
    simp only [get, empty, size, Bool.not_false, Bool.true_and, decide_eq_true_eq, if_neg he,
      if_true, succ_mod ht]
    split_ifs <;> omega
  · have hht : head = tail := hf rfl
    subst hht
    simp only [get, empty, size, Bool.not_true, Bool.false_and, Bool.false_eq_true, if_false,
      if_true, succ_mod ht, Bool.true_eq_false]
    split_ifs <;> omega

/-- The size of a full buffer is its capacity. -/
theorem size_full (rb : RingBuffer T) (hf : rb.full_ = true) : rb.size = rb.max_size_ := by
  simp [size, hf]

/-- The items after `put` on a buffer that is not full. -/
theorem contents_put_not_full (rb : RingBuffer T) (hinv : rb.Inv) (hf : rb.full_ = false)
    (x : T) : (rb.put x).contents = rb.contents ++ [x] := by
  obtain ⟨hlt, hreach⟩ := size_not_full rb hinv hf
  have hsz := size_put_not_full rb hinv hf x
  have htail : (rb.put x).tail_ = rb.tail_ := by simp [put, hf]
  unfold contents
  rw [hsz, htail]
  exact slots_write rb.buf_ rb.max_size_ rb.head_ x rb.size rb.tail_ hinv.2.1 hlt hreach

/-- The items after `put` on a full buffer: the oldest one is dropped. -/
theorem contents_put_full (rb : RingBuffer T) (hinv : rb.Inv) (hf : rb.full_ = true) (x : T) :
    (rb.put x).contents = rb.contents.tail ++ [x] := by
  have ht := hinv.2.1
  obtain ⟨m, hm⟩ : ∃ m, rb.max_size_ = m + 1 := ⟨rb.max_size_ - 1, by omega⟩
  have hold : rb.contents =
      rb.buf_ rb.tail_ :: slots rb.buf_ rb.max_size_ ((rb.tail_ + 1) % rb.max_size_) m := by
    unfold contents
    rw [size_full rb hf]
    conv_lhs => rw [hm]
    rw [slots]
    rw [hm]
  have hnew : (rb.put x).contents =
      slots (fun i => if i = rb.tail_ then x else rb.buf_ i) rb.max_size_
        ((rb.tail_ + 1) % rb.max_size_) (m + 1) := by
    rw [put_full rb hinv hf x]
    unfold contents
    rw [size_full _ rfl]
    simp only
    conv_lhs => rw [hm]
    rw [hm]
  have hreach : ((rb.tail_ + 1) % rb.max_size_ + m) % rb.max_size_ = rb.tail_ := by
    rw [Nat.mod_add_mod]
    have : rb.tail_ + 1 + m = rb.tail_ + rb.max_size_ := by omega
    rw [this, Nat.add_mod_right]
    exact Nat.mod_eq_of_lt ht
  rw [hnew, hold, List.tail_cons]
  exact slots_write rb.buf_ rb.max_size_ rb.tail_ x m _ (Nat.mod_lt _ (by omega)) (by omega)
    hreach

/-- On a buffer that is not empty `get` returns the oldest item and removes
it. -/
theorem contents_get [Inhabited T] (rb : RingBuffer T) (hinv : rb.Inv)
    (he : rb.empty = false) : rb.contents = rb.get.1 :: rb.get.2.contents := by
  have hsz := size_get rb hinv he
  have hget : rb.get =
      (rb.buf_ rb.tail_,
        { rb with full_ := false, tail_ := (rb.tail_ + 1) % rb.max_size_ }) := by
    simp [get, he]
  unfold contents
  rw [← hsz, slots, hget]

/-- On an empty buffer `get` returns the default value and changes nothing. -/
theorem get_empty [Inhabited T] (rb : RingBuffer T) (he : rb.empty = true) :
    rb.get = (default, rb) := by
  simp [get, he]

/-- After `reset` no item is left. -/
theorem contents_reset (rb : RingBuffer T) : rb.reset.contents = [] := by
  simp [contents, reset, size, slots]

/-- The number of unread items is `size()`. -/
theorem contents_length (rb : RingBuffer T) : rb.contents.length = rb.size :=
  slots_length rb.buf_ rb.max_size_ rb.size rb.tail_

/-- A `put` on the buffer is a `put` on the list queue it represents. -/
theorem put_refines (rb : RingBuffer T) (q : ListQueue T) (hinv : rb.Inv)
    (hcap : q.cap = rb.max_size_) (hitems : q.items = rb.contents) (x : T) :
    (rb.put x).Inv ∧ (q.put x).cap = (rb.put x).max_size_ ∧
      (q.put x).items = (rb.put x).contents := by
  refine ⟨inv_put rb hinv x, ?_, ?_⟩
  · unfold ListQueue.put
    split <;> exact hcap
  · unfold ListQueue.put
    cases hf : rb.full_
    · have hlt := (size_not_full rb hinv hf).1
      have hne : ¬ q.items.length = q.cap := by
        rw [hitems, contents_length, hcap]; omega
      rw [if_neg hne, contents_put_not_full rb hinv hf x, hitems]
    · have heq : q.items.length = q.cap := by
        rw [hitems, contents_length, hcap, size_full rb hf]
      rw [if_pos heq, contents_put_full rb hinv hf x, hitems]

/-- A `get` on the buffer returns what a `get` on the represented list queue
returns, and the results represent each other. -/
theorem get_refines [Inhabited T] (rb : RingBuffer T) (q : ListQueue T) (hinv : rb.Inv)
    (hcap : q.cap = rb.max_size_) (hitems : q.items = rb.contents) :
    rb.get.1 = q.get.1 ∧ rb.get.2.Inv ∧ q.get.2.cap = rb.get.2.max_size_ ∧
      q.get.2.items = rb.get.2.contents := by
  cases he : rb.empty
  · have hc := contents_get rb hinv he
    have hq : q.items = rb.get.1 :: rb.get.2.contents := hitems.trans hc
    have hmax : rb.get.2.max_size_ = rb.max_size_ := by simp [get, he]
    unfold ListQueue.get
    rw [hq]
    exact ⟨rfl, inv_get rb hinv, hcap.trans hmax.symm, rfl⟩
  · have hsz : rb.size = 0 := (empty_iff_size rb hinv).mp he
    have hnil : q.items = [] := by
      apply List.eq_nil_of_length_eq_zero
      rw [hitems, contents_length, hsz]
    have hqg : q.get = (default, q) := by
      unfold ListQueue.get
      rw [hnil]
    rw [get_empty rb he, hqg]
    exact ⟨rfl, hinv, hcap, hitems⟩

/-- A sequence of calls on the buffer returns what the same sequence returns
on the represented list queue, and the final states represent each other. -/
theorem runCalls_refines [Inhabited T] (calls : List (Call T)) :
    ∀ (rb : RingBuffer T) (q : ListQueue T), rb.Inv → q.cap = rb.max_size_ →
      q.items = rb.contents →
      (rb.runCalls calls).1 = (q.runCalls calls).1 ∧ (rb.runCalls calls).2.Inv ∧
        (q.runCalls calls).2.items = (rb.runCalls calls).2.contents := by
  induction calls with
  | nil => intro rb q hinv _ hitems; exact ⟨rfl, hinv, hitems⟩
  | cons call calls ih =>
    intro rb q hinv hcap hitems
    cases call with
    | put item =>
      obtain ⟨h1, h2, h3⟩ := put_refines rb q hinv hcap hitems item
      exact ih (rb.put item) (q.put item) h1 h2 h3
    | get =>
      obtain ⟨h0, h1, h2, h3⟩ := get_refines rb q hinv hcap hitems
      obtain ⟨i1, i2, i3⟩ := ih rb.get.2 q.get.2 h1 h2 h3
      refine ⟨?_, i2, i3⟩
      show rb.get.1 :: (rb.get.2.runCalls calls).1 = q.get.1 :: (q.get.2.runCalls calls).1
      rw [h0, i1]
    | reset =>
      exact ih rb.reset q.reset (inv_reset rb hinv) hcap (contents_reset rb).symm

/-- C10. Overwrite-on-full FIFO: for every capacity `C >= 1`, every initial
content of the array and every sequence of `put`/`get`/`reset` calls on a
freshly built `RingBuffer`, the `get` calls return what they return on the
bounded list queue (`put` appends and, when the list already holds `C` items,
first drops the oldest; `get` removes and returns the oldest item or returns
`T()` on the empty list; `reset` empties the list), the unread items are the
items of the list, and `size()` is the length of the list.  In particular,
with capacity 4, `put(1),put(2),put(3),put(4),put(5)` followed by five `get()`
calls yields `2,3,4,5,default`. -/
theorem ring_buffer_refines_list_queue [Inhabited T] (C : Nat) (hC : 1 ≤ C) (init : Nat → T)
    (calls : List (Call T)) :
    ((create C init).runCalls calls).1 = (ListQueue.runCalls ⟨[], C⟩ calls).1 ∧
      ((create C init).runCalls calls).2.contents =
        (ListQueue.runCalls ⟨[], C⟩ calls).2.items ∧
      ((create C init).runCalls calls).2.size =
        (ListQueue.runCalls ⟨[], C⟩ calls).2.items.length ∧
      ∀ init4 : Nat → Nat,
        ((create 4 init4).runCalls
          [Call.put 1, Call.put 2, Call.put 3, Call.put 4, Call.put 5,
            Call.get, Call.get, Call.get, Call.get, Call.get]).1 = [2, 3, 4, 5, default] := by
  obtain ⟨h1, _, h3⟩ :=
    runCalls_refines calls (create C init) ⟨[], C⟩ (inv_create C hC init) rfl rfl
  refine ⟨h1, h3.symm, ?_, ?_⟩
  · rw [h3, contents_length]
  · intro init4
    obtain ⟨s1, _, _⟩ :=
      runCalls_refines
        [Call.put 1, Call.put 2, Call.put 3, Call.put 4, Call.put 5,
          Call.get, Call.get, Call.get, Call.get, Call.get]
        (create 4 init4) ⟨[], 4⟩ (inv_create 4 (by decide) init4) rfl rfl
    rw [s1]
    decide

/-- Instance of `ring_buffer_refines_list_queue`: capacity 2 and the calls
`put(7), put(8), put(9), get, reset, get`. -/
theorem ring_buffer_refines_list_queue_witness :
    1 ≤ 2 ∧
      (((create 2 (fun _ => (0 : Nat))).runCalls
          [Call.put 7, Call.put 8, Call.put 9, Call.get, Call.reset, Call.get]).1 =
        (ListQueue.runCalls ⟨[], 2⟩
          [Call.put 7, Call.put 8, Call.put 9, Call.get, Call.reset, Call.get]).1 ∧
      ((create 2 (fun _ => (0 : Nat))).runCalls
          [Call.put 7, Call.put 8, Call.put 9, Call.get, Call.reset, Call.get]).2.contents =
        (ListQueue.runCalls ⟨[], 2⟩
          [Call.put 7, Call.put 8, Call.put 9, Call.get, Call.reset, Call.get]).2.items ∧
      ((create 2 (fun _ => (0 : Nat))).runCalls
          [Call.put 7, Call.put 8, Call.put 9, Call.get, Call.reset, Call.get]).2.size =
        (ListQueue.runCalls ⟨[], 2⟩
          [Call.put 7, Call.put 8, Call.put 9, Call.get, Call.reset, Call.get]).2.items.length ∧
      ∀ init4 : Nat → Nat,
        ((create 4 init4).runCalls
          [Call.put 1, Call.put 2, Call.put 3, Call.put 4, Call.put 5,
            Call.get, Call.get, Call.get, Call.get, Call.get]).1 = [2, 3, 4, 5, default]) :=
  ⟨by decide,
    ring_buffer_refines_list_queue 2 (by decide) (fun _ => (0 : Nat))
      [Call.put 7, Call.put 8, Call.put 9, Call.get, Call.reset, Call.get]⟩

end RingBuffer
end Audio
end GGB.Hardware

/-! ## Sample ring buffer: single operations and the index invariant -/

namespace GGB.Hardware
namespace Audio
namespace RingBuffer

variable {T : Type}

/-- A sequence of calls preserves the index invariant and the capacity. -/
theorem runCalls_inv [Inhabited T] (calls : List (Call T)) :
    ∀ rb : RingBuffer T, rb.Inv →
      (rb.runCalls calls).2.Inv ∧ (rb.runCalls calls).2.max_size_ = rb.max_size_ := by
  induction calls with
  | nil => intro rb hinv; exact ⟨hinv, rfl⟩
  | cons call calls ih =>
    intro rb hinv
    cases call with
    | put item =>
      obtain ⟨h1, h2⟩ := ih (rb.put item) (inv_put rb hinv item)
      exact ⟨h1, h2⟩
    | get =>
      obtain ⟨h1, h2⟩ := ih rb.get.2 (inv_get rb hinv)
      refine ⟨h1, h2.trans ?_⟩
      unfold get
      split <;> rfl
    | reset =>
      obtain ⟨h1, h2⟩ := ih rb.reset (inv_reset rb hinv)
      exact ⟨h1, h2⟩

/-- The oldest item of a buffer that is not empty lies in the slot `tail_`. -/
theorem contents_head (rb : RingBuffer T) (hpos : 0 < rb.size) :
    rb.contents.head? = some (rb.buf_ rb.tail_) := by
  obtain ⟨n, hn⟩ : ∃ n, rb.size = n + 1 := ⟨rb.size - 1, by omega⟩
  unfold contents
  rw [hn, slots]
  rfl

/-- C11. `put` on a full buffer: for every capacity `C >= 1` and every state
reached from a freshly built buffer by `put`, `get` and `reset` calls in which
`full()` is true, `put(x)` advances both head and tail by one modulo `C`,
leaves `full()` true and `size()` equal to `C`, and stores `x` in the slot
that previously held the oldest item, which is thereby discarded while every
other slot keeps its item. -/
theorem put_on_full [Inhabited T] (C : Nat) (hC : 1 ≤ C) (init : Nat → T)
    (calls : List (Call T)) (x : T)
    (hfull : ((create C init).runCalls calls).2.full = true) :
    (((create C init).runCalls calls).2.put x).head_ =
        (((create C init).runCalls calls).2.head_ + 1) % C ∧
      (((create C init).runCalls calls).2.put x).tail_ =
        (((create C init).runCalls calls).2.tail_ + 1) % C ∧
      (((create C init).runCalls calls).2.put x).full = true ∧
      (((create C init).runCalls calls).2.put x).size = C ∧
      ((create C init).runCalls calls).2.contents.head? =
        some (((create C init).runCalls calls).2.buf_ ((create C init).runCalls calls).2.tail_) ∧
      (((create C init).runCalls calls).2.put x).buf_ ((create C init).runCalls calls).2.tail_ =
        x ∧
      (∀ i, i ≠ ((create C init).runCalls calls).2.tail_ →
        (((create C init).runCalls calls).2.put x).buf_ i =
          ((create C init).runCalls calls).2.buf_ i) ∧
      (((create C init).runCalls calls).2.put x).contents =
        ((create C init).runCalls calls).2.contents.tail ++ [x] := by
  obtain ⟨hinv, hmax⟩ := runCalls_inv calls (create C init) (inv_create C hC init)
  have hmax2 : ((create C init).runCalls calls).2.max_size_ = C := hmax
  have hf : ((create C init).runCalls calls).2.full_ = true := hfull
  have hht : ((create C init).runCalls calls).2.head_ = ((create C init).runCalls calls).2.tail_ :=
    hinv.2.2 hf
  have hput := put_full _ hinv hf x
  have hsz : ((create C init).runCalls calls).2.size = C := (size_full _ hf).trans hmax2
  refine ⟨?_, ?_, ?_, ?_, ?_, ?_, ?_, contents_put_full _ hinv hf x⟩
  · rw [hput, hht, hmax2]
  · rw [hput, hmax2]
  · rw [hput]; rfl
  · rw [hput]; exact (size_full _ rfl).trans hmax2
  · exact contents_head _ (by omega)
  · rw [hput]; simp
  · intro i hi
    rw [hput]; simp [hi]

/-- Instance of `put_on_full`: capacity 2 after `put(7), put(8)`. -/
theorem put_on_full_witness :
    1 ≤ 2 ∧
      ((create 2 (fun _ => (0 : Nat))).runCalls [Call.put 7, Call.put 8]).2.full = true ∧
      ((((create 2 (fun _ => (0 : Nat))).runCalls [Call.put 7, Call.put 8]).2.put 9).head_ =
          (((create 2 (fun _ => (0 : Nat))).runCalls [Call.put 7, Call.put 8]).2.head_ + 1) % 2 ∧
        (((create 2 (fun _ => (0 : Nat))).runCalls [Call.put 7, Call.put 8]).2.put 9).tail_ =
          (((create 2 (fun _ => (0 : Nat))).runCalls [Call.put 7, Call.put 8]).2.tail_ + 1) % 2 ∧
        (((create 2 (fun _ => (0 : Nat))).runCalls [Call.put 7, Call.put 8]).2.put 9).full =
          true ∧
        (((create 2 (fun _ => (0 : Nat))).runCalls [Call.put 7, Call.put 8]).2.put 9).size = 2 ∧
        ((create 2 (fun _ => (0 : Nat))).runCalls [Call.put 7, Call.put 8]).2.contents.head? =
          some (((create 2 (fun _ => (0 : Nat))).runCalls [Call.put 7, Call.put 8]).2.buf_
            ((create 2 (fun _ => (0 : Nat))).runCalls [Call.put 7, Call.put 8]).2.tail_) ∧
        (((create 2 (fun _ => (0 : Nat))).runCalls [Call.put 7, Call.put 8]).2.put 9).buf_
            ((create 2 (fun _ => (0 : Nat))).runCalls [Call.put 7, Call.put 8]).2.tail_ = 9 ∧
        (∀ i, i ≠ ((create 2 (fun _ => (0 : Nat))).runCalls [Call.put 7, Call.put 8]).2.tail_ →
          (((create 2 (fun _ => (0 : Nat))).runCalls [Call.put 7, Call.put 8]).2.put 9).buf_ i =
            ((create 2 (fun _ => (0 : Nat))).runCalls [Call.put 7, Call.put 8]).2.buf_ i) ∧
        (((create 2 (fun _ => (0 : Nat))).runCalls [Call.put 7, Call.put 8]).2.put 9).contents =
          ((create 2 (fun _ => (0 : Nat))).runCalls
            [Call.put 7, Call.put 8]).2.contents.tail ++ [9]) :=
  ⟨by decide, by decide,
    put_on_full 2 (by decide) (fun _ => (0 : Nat)) [Call.put 7, Call.put 8] 9 (by decide)⟩

/-- C12. `get` on an empty buffer: in every state in which `empty()` is true,
`get()` returns the default value `T()` and leaves head, tail, the full flag,
the stored items and therefore `size()` unchanged. -/
theorem get_on_empty [Inhabited T] (rb : RingBuffer T) (he : rb.empty = true) :
    rb.get.1 = default ∧ rb.get.2.head_ = rb.head_ ∧ rb.get.2.tail_ = rb.tail_ ∧
      rb.get.2.full_ = rb.full_ ∧ rb.get.2.buf_ = rb.buf_ ∧
      rb.get.2.max_size_ = rb.max_size_ ∧ rb.get.2.size = rb.size := by
  rw [get_empty rb he]
  exact ⟨rfl, rfl, rfl, rfl, rfl, rfl, rfl⟩

/-- Instance of `get_on_empty`: a freshly built buffer of capacity 4. -/
theorem get_on_empty_witness :
    (create 4 (fun _ => (0 : Nat))).empty = true ∧
      ((create 4 (fun _ => (0 : Nat))).get.1 = default ∧
        (create 4 (fun _ => (0 : Nat))).get.2.head_ = (create 4 (fun _ => (0 : Nat))).head_ ∧
        (create 4 (fun _ => (0 : Nat))).get.2.tail_ = (create 4 (fun _ => (0 : Nat))).tail_ ∧
        (create 4 (fun _ => (0 : Nat))).get.2.full_ = (create 4 (fun _ => (0 : Nat))).full_ ∧
        (create 4 (fun _ => (0 : Nat))).get.2.buf_ = (create 4 (fun _ => (0 : Nat))).buf_ ∧
        (create 4 (fun _ => (0 : Nat))).get.2.max_size_ =
          (create 4 (fun _ => (0 : Nat))).max_size_ ∧
        (create 4 (fun _ => (0 : Nat))).get.2.size = (create 4 (fun _ => (0 : Nat))).size) :=
  ⟨by decide, get_on_empty (create 4 (fun _ => (0 : Nat))) (by decide)⟩

/-- C13. `reset` empties the buffer: in every state of a `RingBuffer`,
whatever head, tail and full flag it has, after `reset()` `size()` is 0,
`empty()` is true and `full()` is false. -/
theorem reset_empties (rb : RingBuffer T) :
    rb.reset.size = 0 ∧ rb.reset.empty = true ∧ rb.reset.full = false := by
  refine ⟨?_, ?_, rfl⟩
  · simp [reset, size]
  · simp [reset, empty]

/-- C20. Ring-buffer index invariant: for every capacity `C >= 1`, in every
state reached from a freshly built buffer by `put`, `get` and `reset` calls,
`head < C`, `tail < C` and the full flag is set only when head equals tail;
so the slots accessed by `put` and `get` are in bounds, `size() <= capacity()`,
`full()` holds exactly when `size()` equals `capacity()`, and `empty()` holds
exactly when `size()` is 0. -/
theorem index_invariant [Inhabited T] (C : Nat) (hC : 1 ≤ C) (init : Nat → T)
    (calls : List (Call T)) :
    ((create C init).runCalls calls).2.capacity = C ∧
      ((create C init).runCalls calls).2.head_ < C ∧
      ((create C init).runCalls calls).2.tail_ < C ∧
      (((create C init).runCalls calls).2.full_ = true →
        ((create C init).runCalls calls).2.head_ = ((create C init).runCalls calls).2.tail_) ∧
      ((create C init).runCalls calls).2.size ≤ ((create C init).runCalls calls).2.capacity ∧
      (((create C init).runCalls calls).2.full = true ↔
        ((create C init).runCalls calls).2.size = ((create C init).runCalls calls).2.capacity) ∧
      (((create C init).runCalls calls).2.empty = true ↔
        ((create C init).runCalls calls).2.size = 0) := by
  obtain ⟨hinv, hmax⟩ := runCalls_inv calls (create C init) (inv_create C hC init)
  have hmax2 : ((create C init).runCalls calls).2.max_size_ = C := hmax
  have hfull : ((create C init).runCalls calls).2.full = true ↔
      ((create C init).runCalls calls).2.size = ((create C init).runCalls calls).2.capacity := by
    constructor
    · intro hf
      exact size_full _ hf
    · intro hs
      cases hf : ((create C init).runCalls calls).2.full_
      · have hlt := (size_not_full _ hinv hf).1
        have hs2 : ((create C init).runCalls calls).2.size =
            ((create C init).runCalls calls).2.max_size_ := hs
        omega
      · exact hf
  have hle : ((create C init).runCalls calls).2.size ≤
      ((create C init).runCalls calls).2.capacity := by
    show _ ≤ ((create C init).runCalls calls).2.max_size_
    cases hf : ((create C init).runCalls calls).2.full_
    · exact Nat.le_of_lt (size_not_full _ hinv hf).1
    · exact Nat.le_of_eq (size_full _ hf)
  exact ⟨hmax2, Nat.lt_of_lt_of_eq hinv.1 hmax2, Nat.lt_of_lt_of_eq hinv.2.1 hmax2, hinv.2.2,
    hle, hfull, empty_iff_size _ hinv⟩

/-- Instance of `index_invariant`: capacity 3 and the calls
`put, put, get, put, put, reset, put`. -/
theorem index_invariant_witness :
    1 ≤ 3 ∧
      (((create 3 (fun _ => (0 : Nat))).runCalls
          [Call.put 1, Call.put 2, Call.get, Call.put 3, Call.put 4, Call.reset,
            Call.put 5]).2.capacity = 3 ∧
        ((create 3 (fun _ => (0 : Nat))).runCalls
          [Call.put 1, Call.put 2, Call.get, Call.put 3, Call.put 4, Call.reset,
            Call.put 5]).2.head_ < 3 ∧
        ((create 3 (fun _ => (0 : Nat))).runCalls
          [Call.put 1, Call.put 2, Call.get, Call.put 3, Call.put 4, Call.reset,
            Call.put 5]).2.tail_ < 3 ∧
        (((create 3 (fun _ => (0 : Nat))).runCalls
            [Call.put 1, Call.put 2, Call.get, Call.put 3, Call.put 4, Call.reset,
              Call.put 5]).2.full_ = true →
          ((create 3 (fun _ => (0 : Nat))).runCalls
            [Call.put 1, Call.put 2, Call.get, Call.put 3, Call.put 4, Call.reset,
              Call.put 5]).2.head_ =
            ((create 3 (fun _ => (0 : Nat))).runCalls
              [Call.put 1, Call.put 2, Call.get, Call.put 3, Call.put 4, Call.reset,
                Call.put 5]).2.tail_) ∧
        ((create 3 (fun _ => (0 : Nat))).runCalls
            [Call.put 1, Call.put 2, Call.get, Call.put 3, Call.put 4, Call.reset,
              Call.put 5]).2.size ≤
          ((create 3 (fun _ => (0 : Nat))).runCalls
            [Call.put 1, Call.put 2, Call.get, Call.put 3, Call.put 4, Call.reset,
              Call.put 5]).2.capacity ∧
        (((create 3 (fun _ => (0 : Nat))).runCalls
            [Call.put 1, Call.put 2, Call.get, Call.put 3, Call.put 4, Call.reset,
              Call.put 5]).2.full = true ↔
          ((create 3 (fun _ => (0 : Nat))).runCalls
            [Call.put 1, Call.put 2, Call.get, Call.put 3, Call.put 4, Call.reset,
              Call.put 5]).2.size =
            ((create 3 (fun _ => (0 : Nat))).runCalls
              [Call.put 1, Call.put 2, Call.get, Call.put 3, Call.put 4, Call.reset,
                Call.put 5]).2.capacity) ∧
        (((create 3 (fun _ => (0 : Nat))).runCalls
            [Call.put 1, Call.put 2, Call.get, Call.put 3, Call.put 4, Call.reset,
              Call.put 5]).2.empty = true ↔
          ((create 3 (fun _ => (0 : Nat))).runCalls
            [Call.put 1, Call.put 2, Call.get, Call.put 3, Call.put 4, Call.reset,
              Call.put 5]).2.size = 0)) :=
  ⟨by decide,
    index_invariant 3 (by decide) (fun _ => (0 : Nat))
      [Call.put 1, Call.put 2, Call.get, Call.put 3, Call.put 4, Call.reset, Call.put 5]⟩

end RingBuffer
end Audio
end GGB.Hardware

/-! ## Stack layout -/

namespace GGB.Hardware
namespace Cpu

open Instructions

/-- C17. `pushStack` layout: for every 16-bit value `V` and 16-bit stack
pointer `S`, after `pushStack(V)` the byte at address `S-1` is the high byte
of `V`, the byte at address `S-2` is the low byte of `V`, the stack pointer is
`S-2` (all modulo 2^16), and every memory byte at any other address and every
other register is unchanged. -/
theorem pushStack_layout (c : Cpu) (V : Nat) (hV : V < 65536) (hS : c.sp < 65536) :
    (c.pushStack V).mmu.read (c.sp + 65536 - 1) = V / 256 ∧
      (c.pushStack V).mmu.read (c.sp + 65536 - 2) = V % 256 ∧
      (c.pushStack V).sp = (c.sp + 65536 - 2) % 65536 ∧
      (c.sp ≥ 2 → (c.pushStack V).sp = c.sp - 2) ∧
      (∀ a, a % 65536 ≠ (c.sp + 65536 - 1) % 65536 → a % 65536 ≠ (c.sp + 65536 - 2) % 65536 →
        (c.pushStack V).mmu.read a = c.mmu.read a) ∧
      (c.pushStack V).pc = c.pc ∧ (c.pushStack V).general = c.general ∧
      (c.pushStack V).flags = c.flags ∧ (c.pushStack V).halted = c.halted ∧
      (c.pushStack V).interruptMasterFlag = c.interruptMasterFlag ∧
      (c.pushStack V).state = c.state ∧
      (c.pushStack V).currentInstruction = c.currentInstruction ∧
      (c.pushStack V).nextInstruction = c.nextInstruction := by
  have hne : (c.sp + 65536 - 1) % 65536 ≠ (c.sp + 65536 - 2) % 65536 := by omega
  have hm : (c.pushStack V).mmu =
      (c.mmu.write (c.sp + 65536 - 1) ((V &&& 0xFF00) >>> 8)).write (c.sp + 65536 - 2)
        (V &&& 0x00FF) := by
    unfold pushStack; rfl
  refine ⟨?_, ?_, ?_, ?_, ?_, ?_⟩
  · rw [hm, Mmu.read_write, if_neg hne, Mmu.read_write, if_pos rfl, high_byte_eq]
    omega
  · rw [hm, Mmu.read_write, if_pos rfl, low_byte_eq]
    omega
  · unfold pushStack; rfl
  · intro h2
    show (c.sp + 65536 - 2) % 65536 = c.sp - 2
    omega
  · intro a h1 h2
    rw [hm, Mmu.read_write, if_neg h2, Mmu.read_write, if_neg h1]
  · unfold pushStack
    exact ⟨rfl, rfl, rfl, rfl, rfl, rfl, rfl, rfl⟩

/-- Instance of `pushStack_layout`: the word 0xBEEF pushed from the stack
pointer 0xFFFE. -/
theorem pushStack_layout_witness :
    (0xBEEF < 65536 ∧ Sample.cpu.sp < 65536) ∧
      ((Sample.cpu.pushStack 0xBEEF).mmu.read (Sample.cpu.sp + 65536 - 1) = 0xBEEF / 256 ∧
        (Sample.cpu.pushStack 0xBEEF).mmu.read (Sample.cpu.sp + 65536 - 2) = 0xBEEF % 256 ∧
        (Sample.cpu.pushStack 0xBEEF).sp = (Sample.cpu.sp + 65536 - 2) % 65536 ∧
        (Sample.cpu.sp ≥ 2 → (Sample.cpu.pushStack 0xBEEF).sp = Sample.cpu.sp - 2) ∧
        (∀ a, a % 65536 ≠ (Sample.cpu.sp + 65536 - 1) % 65536 →
          a % 65536 ≠ (Sample.cpu.sp + 65536 - 2) % 65536 →
          (Sample.cpu.pushStack 0xBEEF).mmu.read a = Sample.cpu.mmu.read a) ∧
        (Sample.cpu.pushStack 0xBEEF).pc = Sample.cpu.pc ∧
        (Sample.cpu.pushStack 0xBEEF).general = Sample.cpu.general ∧
        (Sample.cpu.pushStack 0xBEEF).flags = Sample.cpu.flags ∧
        (Sample.cpu.pushStack 0xBEEF).halted = Sample.cpu.halted ∧
        (Sample.cpu.pushStack 0xBEEF).interruptMasterFlag = Sample.cpu.interruptMasterFlag ∧
        (Sample.cpu.pushStack 0xBEEF).state = Sample.cpu.state ∧
        (Sample.cpu.pushStack 0xBEEF).currentInstruction = Sample.cpu.currentInstruction ∧
        (Sample.cpu.pushStack 0xBEEF).nextInstruction = Sample.cpu.nextInstruction) :=
  ⟨⟨by decide, by decide⟩, pushStack_layout Sample.cpu 0xBEEF (by decide) (by decide)⟩

end Cpu
end GGB.Hardware

/-! ## Decoder -/

namespace GGB.Hardware
namespace Cpu

open Instructions

/-- The decode of a base-table opcode. -/
theorem parse_base (iset : InstructionSet) (c : Cpu) (hb : c.mmu.read c.pc ≠ 0xCB) :
    c.parseNextInstruction iset =
      if (iset.set (c.mmu.read c.pc)).length = 3 then
        { bytePosition := c.pc
          parsedBytes :=
            { opcode := c.mmu.read c.pc
              low := if (iset.set (c.mmu.read c.pc)).length ≥ 2 then c.mmu.read (c.pc + 1) else 0
              high := c.mmu.read (c.pc + 2)
              b16 := ((c.mmu.read (c.pc + 2) <<< 8) |||
                (if (iset.set (c.mmu.read c.pc)).length ≥ 2 then c.mmu.read (c.pc + 1)
                  else 0)) % 65536 }
          definition := iset.set (c.mmu.read c.pc) }
      else
        { bytePosition := c.pc
          parsedBytes :=
            { opcode := c.mmu.read c.pc
              low := if (iset.set (c.mmu.read c.pc)).length ≥ 2 then c.mmu.read (c.pc + 1) else 0
              high := 0
              b16 := 0 }
          definition := iset.set (c.mmu.read c.pc) } := by
  unfold parseNextInstruction
  simp only [if_pos hb]

/-- The decode of a prefixed opcode. -/
theorem parse_prefixed (iset : InstructionSet) (c : Cpu) (hb : c.mmu.read c.pc = 0xCB) :
    c.parseNextInstruction iset =
      { bytePosition := c.pc
        parsedBytes := { opcode := 0xCB, low := c.mmu.read (c.pc + 1), high := 0, b16 := 0 }
        definition := iset.prefixSet (c.mmu.read (c.pc + 1)) } := by
  unfold parseNextInstruction
  simp only [hb, ne_eq, not_true_eq_false, if_false]

/-- The reads of the decode of a base-table opcode. -/
theorem parseReads_base (iset : InstructionSet) (c : Cpu) (hb : c.mmu.read c.pc ≠ 0xCB) :
    c.parseReads iset =
      [c.pc % 65536]
        ++ (if (iset.set (c.mmu.read c.pc)).length ≥ 2 then [(c.pc + 1) % 65536] else [])
        ++ (if (iset.set (c.mmu.read c.pc)).length = 3 then [(c.pc + 2) % 65536] else []) := by
  unfold parseReads
  simp only [if_pos hb]

/-- The reads of the decode of a prefixed opcode. -/
theorem parseReads_prefixed (iset : InstructionSet) (c : Cpu) (hb : c.mmu.read c.pc = 0xCB) :
    c.parseReads iset = [c.pc % 65536, (c.pc + 1) % 65536, (c.pc + 1) % 65536] := by
  unfold parseReads
  simp only [hb, ne_eq, not_true_eq_false, if_false]

/-- The opcode byte is always read. -/
theorem pc_mem_parseReads (iset : InstructionSet) (c : Cpu) :
    c.pc % 65536 ∈ c.parseReads iset := by
  by_cases hb : c.mmu.read c.pc = 0xCB
  · rw [parseReads_prefixed iset c hb]; simp
  · rw [parseReads_base iset c hb]; simp

/-- The decode depends on the program counter and on the memory cells it
reads, and on nothing else. -/
theorem parse_congr (iset : InstructionSet) (c c2 : Cpu) (hpc : c2.pc = c.pc)
    (hmem : ∀ a ∈ c.parseReads iset, c2.mmu.mem a = c.mmu.mem a) :
    c2.parseNextInstruction iset = c.parseNextInstruction iset := by
  have h0 : c2.mmu.read c2.pc = c.mmu.read c.pc := by
    rw [hpc]; exact hmem _ (pc_mem_parseReads iset c)
  by_cases hb : c.mmu.read c.pc = 0xCB
  · have hb2 : c2.mmu.read c2.pc = 0xCB := h0.trans hb
    have h1 : c2.mmu.read (c2.pc + 1) = c.mmu.read (c.pc + 1) := by
      rw [hpc]
      apply hmem
      rw [parseReads_prefixed iset c hb]; simp
    rw [parse_prefixed iset c hb, parse_prefixed iset c2 hb2, h1, hpc]
  · have hb2 : c2.mmu.read c2.pc ≠ 0xCB := by rw [h0]; exact hb
    rw [parse_base iset c hb, parse_base iset c2 hb2, h0, hpc]
    have hreads := parseReads_base iset c hb
    by_cases h3 : (iset.set (c.mmu.read c.pc)).length = 3
    · have h1 : c2.mmu.read (c.pc + 1) = c.mmu.read (c.pc + 1) := by
        apply hmem
        rw [hreads]; simp [h3]
      have h2 : c2.mmu.read (c.pc + 2) = c.mmu.read (c.pc + 2) := by
        apply hmem
        rw [hreads]; simp [h3]
      rw [if_pos h3, if_pos h3, h1, h2]
    · rw [if_neg h3, if_neg h3]
      by_cases h2 : (iset.set (c.mmu.read c.pc)).length ≥ 2
      · have h1 : c2.mmu.read (c.pc + 1) = c.mmu.read (c.pc + 1) := by
          apply hmem
          rw [hreads]; simp [h2]
        rw [if_pos h2, if_pos h2, h1]
      · rw [if_neg h2, if_neg h2]

/-- C14. Base-table decode: when the byte `b` at the program counter `A` is
not 0xCB, `parseNextInstruction` yields an instruction with source address
`A`, raw opcode `b` and the base-table definition for `b`; when the length of
that definition is at least 2 its low immediate is the byte at `A+1`; when the
length is 3 its high immediate is the byte at `A+2` and its 16-bit operand is
`(high<<8)|low`; the byte at `A+1` is read only when the length is at least 2
and the byte at `A+2` only when the length is 3, so that for a declared length
of at least 1 every read lies within the instruction (only `A` is read when
the length is 1), and the result depends on no other memory cell. -/
theorem base_table_decode (iset : InstructionSet) (c : Cpu) (hb : c.mmu.read c.pc ≠ 0xCB) :
    (c.parseNextInstruction iset).bytePosition = c.pc ∧
      (c.parseNextInstruction iset).parsedBytes.opcode = c.mmu.read c.pc ∧
      (c.parseNextInstruction iset).definition = iset.set (c.mmu.read c.pc) ∧
      (2 ≤ (iset.set (c.mmu.read c.pc)).length →
        (c.parseNextInstruction iset).parsedBytes.low = c.mmu.read (c.pc + 1)) ∧
      ((iset.set (c.mmu.read c.pc)).length = 3 →
        (c.parseNextInstruction iset).parsedBytes.high = c.mmu.read (c.pc + 2) ∧
          (c.parseNextInstruction iset).parsedBytes.b16 =
            ((c.mmu.read (c.pc + 2) <<< 8) ||| c.mmu.read (c.pc + 1)) % 65536 ∧
          (c.mmu.read (c.pc + 1) < 256 → c.mmu.read (c.pc + 2) < 256 →
            (c.parseNextInstruction iset).parsedBytes.b16 =
              (c.mmu.read (c.pc + 2) <<< 8) ||| c.mmu.read (c.pc + 1))) ∧
      ((iset.set (c.mmu.read c.pc)).length ≤ 1 → c.parseReads iset = [c.pc % 65536]) ∧
      ((iset.set (c.mmu.read c.pc)).length = 2 ∨ 3 < (iset.set (c.mmu.read c.pc)).length →
        c.parseReads iset = [c.pc % 65536, (c.pc + 1) % 65536]) ∧
      ((iset.set (c.mmu.read c.pc)).length = 3 →
        c.parseReads iset = [c.pc % 65536, (c.pc + 1) % 65536, (c.pc + 2) % 65536]) ∧
      (1 ≤ (iset.set (c.mmu.read c.pc)).length →
        ∀ a ∈ c.parseReads iset,
          ∃ i, i < (iset.set (c.mmu.read c.pc)).length ∧ a = (c.pc + i) % 65536) ∧
      (∀ c2 : Cpu, c2.pc = c.pc → (∀ a ∈ c.parseReads iset, c2.mmu.mem a = c.mmu.mem a) →
        c2.parseNextInstruction iset = c.parseNextInstruction iset) := by
  have hp := parse_base iset c hb
  have hr := parseReads_base iset c hb
  refine ⟨?_, ?_, ?_, ?_, ?_, ?_, ?_, ?_, ?_, fun c2 h1 h2 => parse_congr iset c c2 h1 h2⟩
  · rw [hp]; split <;> rfl
  · rw [hp]; split <;> rfl
  · rw [hp]; split <;> rfl
  · intro h2
    have h2g : (iset.set (c.mmu.read c.pc)).length ≥ 2 := h2
    rw [hp, if_pos h2g]
    split <;> rfl
  · intro h3
    have h2 : (iset.set (c.mmu.read c.pc)).length ≥ 2 := by omega
    have hb16 : (c.parseNextInstruction iset).parsedBytes.b16 =
        ((c.mmu.read (c.pc + 2) <<< 8) ||| c.mmu.read (c.pc + 1)) % 65536 := by
      rw [hp, if_pos h3, if_pos h2]
    refine ⟨?_, hb16, ?_⟩
    · rw [hp, if_pos h3]
    · intro hl hh
      rw [hb16, shift_or_eq _ _ hl]
      apply Nat.mod_eq_of_lt
      omega
  · intro h1
    rw [hr, if_neg (by omega), if_neg (by omega)]
    rfl
  · intro h2
    rw [hr, if_pos (by omega), if_neg (by omega)]
    rfl
  · intro h3
    rw [hr, if_pos (by omega), if_pos h3]
    rfl
  · intro h1 a ha
    rw [hr] at ha
    simp only [List.mem_append, List.mem_singleton] at ha
    rcases ha with (ha | ha) | ha
    · exact ⟨0, by omega, ha⟩
    · split at ha
      · exact ⟨1, by omega, List.mem_singleton.mp ha⟩
      · exact absurd ha (List.not_mem_nil _)
    · split at ha
      · exact ⟨2, by omega, List.mem_singleton.mp ha⟩
      · exact absurd ha (List.not_mem_nil _)

/-- Instance of `base_table_decode`: the opcode 0x00 of length 1 at 0x0150. -/
theorem base_table_decode_witness :
    Sample.cpu.mmu.read Sample.cpu.pc ≠ 0xCB ∧
      (Sample.cpu.parseNextInstruction Sample.iset).bytePosition = Sample.cpu.pc ∧
      (Sample.cpu.parseNextInstruction Sample.iset).definition =
        Sample.iset.set (Sample.cpu.mmu.read Sample.cpu.pc) ∧
      Sample.cpu.parseReads Sample.iset = [Sample.cpu.pc % 65536] :=
  ⟨by decide,
    (base_table_decode Sample.iset Sample.cpu (by decide)).1,
    (base_table_decode Sample.iset Sample.cpu (by decide)).2.2.1,
    (base_table_decode Sample.iset Sample.cpu (by decide)).2.2.2.2.2.1 (by decide)⟩

/-- C15. Prefixed decode: with a prefixed table whose entries declare the
two bytes of a prefixed instruction (prefix byte plus opcode byte), when the
byte at the program counter `A` is 0xCB, `parseNextInstruction` selects the
definition from the prefixed table indexed by the byte at `A+1`; the resulting
instruction has length 2, so that executing it advances the program counter by
2; and only `A` and `A+1` are read, no byte at `A+2` or beyond, the result
depending on no other memory cell. -/
theorem prefixed_decode (run : Nat → Cpu → Nat × Cpu) (k : Const) (iset : InstructionSet)
    (c : Cpu) (htable : ∀ b, (iset.prefixSet b).length = 2) (hb : c.mmu.read c.pc = 0xCB) :
    (c.parseNextInstruction iset).bytePosition = c.pc ∧
      (c.parseNextInstruction iset).parsedBytes.opcode = 0xCB ∧
      (c.parseNextInstruction iset).definition = iset.prefixSet (c.mmu.read (c.pc + 1)) ∧
      (c.parseNextInstruction iset).parsedBytes.low = c.mmu.read (c.pc + 1) ∧
      (c.parseNextInstruction iset).definition.length = 2 ∧
      c.parseReads iset = [c.pc % 65536, (c.pc + 1) % 65536, (c.pc + 1) % 65536] ∧
      (∀ a ∈ c.parseReads iset, a = c.pc % 65536 ∨ a = (c.pc + 1) % 65536) ∧
      (∀ c2 : Cpu, c2.pc = c.pc → (∀ a ∈ c.parseReads iset, c2.mmu.mem a = c.mmu.mem a) →
        c2.parseNextInstruction iset = c.parseNextInstruction iset) ∧
      (c.halted = false → c.nextInstruction = c.parseNextInstruction iset →
        c.fetch.pc = (c.pc + 2) % 65536 ∧
          (((c.executeStep run iset).2.handleInterrupts k).1 = false →
            (c.cycle run k iset).2.pc =
              (run (iset.prefixSet (c.mmu.read (c.pc + 1))).executeInterpreter c.fetch).2.pc) ∧
          ((∀ s, (run (iset.prefixSet (c.mmu.read (c.pc + 1))).executeInterpreter s).2.pc =
              s.pc) →
            ((c.executeStep run iset).2.handleInterrupts k).1 = false →
            (c.cycle run k iset).2.pc = (c.pc + 2) % 65536)) := by
  have hp := parse_prefixed iset c hb
  have hr := parseReads_prefixed iset c hb
  refine ⟨by rw [hp], by rw [hp], by rw [hp], by rw [hp], ?_, hr, ?_,
    fun c2 h1 h2 => parse_congr iset c c2 h1 h2, ?_⟩
  · rw [hp]
    exact htable _
  · intro a ha
    rw [hr] at ha
    simp only [List.mem_cons, List.mem_singleton, List.not_mem_nil, or_false] at ha
    rcases ha with ha | ha | ha
    · exact Or.inl ha
    · exact Or.inr ha
    · exact Or.inr ha
  · intro hh hnext
    have hd : c.nextInstruction.definition = iset.prefixSet (c.mmu.read (c.pc + 1)) := by
      rw [hnext, hp]
    have hf : c.fetch.pc = (c.pc + 2) % 65536 := by
      show (c.pc + c.nextInstruction.definition.length) % 65536 = _
      rw [hd, htable]
    refine ⟨hf, ?_, ?_⟩
    · intro hn
      rw [cycle_pc_not_serviced run k iset c hh hn, hd]
    · intro hpc hn
      rw [cycle_pc_not_serviced run k iset c hh hn, hd, hpc]
      exact hf

/-- Instance of `prefixed_decode`: a 0xCB byte at 0x0150 under a table whose
prefixed entries declare length 2; the program counter advances to 0x0152. -/
theorem prefixed_decode_witness :
    (∀ b, (Sample.isetCB.prefixSet b).length = 2) ∧
      Sample.cpuCB.mmu.read Sample.cpuCB.pc = 0xCB ∧
      (Sample.cpuCB.parseNextInstruction Sample.isetCB).definition =
        Sample.isetCB.prefixSet (Sample.cpuCB.mmu.read (Sample.cpuCB.pc + 1)) ∧
      (Sample.cpuCB.parseNextInstruction Sample.isetCB).definition.length = 2 ∧
      Sample.cpuCB.parseReads Sample.isetCB =
        [Sample.cpuCB.pc % 65536, (Sample.cpuCB.pc + 1) % 65536,
          (Sample.cpuCB.pc + 1) % 65536] ∧
      Sample.cpuCB.fetch.pc = (Sample.cpuCB.pc + 2) % 65536 ∧
      (Sample.cpuCB.cycle Sample.run Const.dmg Sample.isetCB).2.pc =
        (Sample.cpuCB.pc + 2) % 65536 :=
  ⟨fun _ => rfl, by decide,
    (prefixed_decode Sample.run Const.dmg Sample.isetCB Sample.cpuCB (fun _ => rfl)
      (by decide)).2.2.1,
    (prefixed_decode Sample.run Const.dmg Sample.isetCB Sample.cpuCB (fun _ => rfl)
      (by decide)).2.2.2.2.1,
    (prefixed_decode Sample.run Const.dmg Sample.isetCB Sample.cpuCB (fun _ => rfl)
      (by decide)).2.2.2.2.2.1,
    ((prefixed_decode Sample.run Const.dmg Sample.isetCB Sample.cpuCB (fun _ => rfl)
      (by decide)).2.2.2.2.2.2.2.2 (by decide) (by decide)).1,
    ((prefixed_decode Sample.run Const.dmg Sample.isetCB Sample.cpuCB (fun _ => rfl)
      (by decide)).2.2.2.2.2.2.2.2 (by decide) (by decide)).2.2 (fun _ => rfl) (by decide)⟩

/-- C16 as stated fails: the decoder has no error result.  With a base table
whose entry for opcode 0xD3 declares length 0, decoding at a 0xD3 byte
produces a parsed instruction carrying that entry, and `cycle()` executes its
routine (which reports 8 cycles and stores 0xAA in the flag register) and
advances the program counter by the declared length 0. -/
theorem illegal_opcode_counterexample :
    Sample.cpuIllegal.mmu.read Sample.cpuIllegal.pc = 0xD3 ∧
      (Sample.isetIllegal.set 0xD3).length = 0 ∧
      Sample.cpuIllegal.parseNextInstruction Sample.isetIllegal =
        { bytePosition := 0x0150, parsedBytes := ⟨0xD3, 0, 0, 0⟩,
          definition := Sample.isetIllegal.set 0xD3 } ∧
      Sample.cpuIllegal.nextInstruction =
        Sample.cpuIllegal.parseNextInstruction Sample.isetIllegal ∧
      Sample.cpuIllegal.halted = false ∧ Sample.cpuIllegal.flags = 0 ∧
      Sample.cpuIllegal.pc = 0x0150 ∧
      (Sample.cpuIllegal.cycle Sample.runMark Const.dmg Sample.isetIllegal).1 = 8 ∧
      (Sample.cpuIllegal.cycle Sample.runMark Const.dmg Sample.isetIllegal).2.flags = 0xAA ∧
      (Sample.cpuIllegal.cycle Sample.runMark Const.dmg Sample.isetIllegal).2.pc = 0x0150 := by
  decide

/-- C16 (amended). An illegal opcode is decoded and executed like any other:
when the decode at the program counter selects a table entry whose declared
length is 0 or more than 3, `parseNextInstruction` still produces a parsed
instruction, with the program counter as source address and that entry of the
base or of the prefixed table as definition, and a `cycle()` call from a state
that is not halted and whose pipelined instruction is that decode makes the
entry the current instruction, advances the program counter by the declared
length and executes the routine of the entry, whose cycle count it returns. -/
theorem illegal_opcode_executed (run : Nat → Cpu → Nat × Cpu) (k : Const)
    (iset : InstructionSet) (c : Cpu)
    (hl : (c.parseNextInstruction iset).definition.length = 0 ∨
      3 < (c.parseNextInstruction iset).definition.length) :
    (c.parseNextInstruction iset).bytePosition = c.pc ∧
      ((c.parseNextInstruction iset).definition = iset.set (c.mmu.read c.pc) ∨
        (c.parseNextInstruction iset).definition = iset.prefixSet (c.mmu.read (c.pc + 1))) ∧
      (c.parseNextInstruction iset).definition.length ∉ [1, 2, 3] ∧
      (c.halted = false → c.nextInstruction = c.parseNextInstruction iset →
        c.fetch.currentInstruction = c.parseNextInstruction iset ∧
          c.fetch.pc = (c.pc + (c.parseNextInstruction iset).definition.length) % 65536 ∧
          (c.cycle run k iset).1 =
            (run (c.parseNextInstruction iset).definition.executeInterpreter c.fetch).1 % 256 ∧
          (c.cycle run k iset).2.currentInstruction =
            ((c.executeStep run iset).2.handleInterrupts k).2.currentInstruction ∧
          (((c.executeStep run iset).2.handleInterrupts k).1 = false →
            (c.cycle run k iset).2.pc =
              (run (c.parseNextInstruction iset).definition.executeInterpreter c.fetch).2.pc)) := by
  refine ⟨?_, ?_, ?_, ?_⟩
  · by_cases hb : c.mmu.read c.pc = 0xCB
    · rw [parse_prefixed iset c hb]
    · rw [parse_base iset c hb]; split <;> rfl
  · by_cases hb : c.mmu.read c.pc = 0xCB
    · right; rw [parse_prefixed iset c hb]
    · left; rw [parse_base iset c hb]; split <;> rfl
  · intro hmem
    simp only [List.mem_cons, List.mem_singleton, List.not_mem_nil, or_false] at hmem
    omega
  · intro hh hnext
    refine ⟨hnext, ?_, ?_, ?_, ?_⟩
    · show (c.pc + c.nextInstruction.definition.length) % 65536 = _
      rw [hnext]
    · rw [cycle_running run k iset c hh, executeStep_eq run iset c, hnext]
    · rw [cycle_running run k iset c hh]
      show (demote _).currentInstruction = _
      rw [(demote_fields _).2.2.2.2.2.2.1, (reprime_fields _ _).2.2.2.2.2.2.2.1]
    · intro hn
      rw [cycle_pc_not_serviced run k iset c hh hn, hnext]

/-- Instance of `illegal_opcode_executed`: the opcode 0xD3 of declared length
0 at 0x0150. -/
theorem illegal_opcode_executed_witness :
    ((Sample.cpuIllegal.parseNextInstruction Sample.isetIllegal).definition.length = 0 ∨
        3 < (Sample.cpuIllegal.parseNextInstruction Sample.isetIllegal).definition.length) ∧
      (Sample.cpuIllegal.parseNextInstruction Sample.isetIllegal).bytePosition =
        Sample.cpuIllegal.pc ∧
      (Sample.cpuIllegal.cycle Sample.runMark Const.dmg Sample.isetIllegal).1 =
        (Sample.runMark
          (Sample.cpuIllegal.parseNextInstruction Sample.isetIllegal).definition.executeInterpreter
          Sample.cpuIllegal.fetch).1 % 256 :=
  ⟨by decide,
    (illegal_opcode_executed Sample.runMark Const.dmg Sample.isetIllegal Sample.cpuIllegal
      (by decide)).1,
    ((illegal_opcode_executed Sample.runMark Const.dmg Sample.isetIllegal Sample.cpuIllegal
      (by decide)).2.2.2 (by decide) (by decide)).2.2.1⟩

/-- The decode is a function of the program counter and of the memory. -/
theorem parse_eq_of (iset : InstructionSet) (c c2 : Cpu) (hpc : c2.pc = c.pc)
    (hmmu : c2.mmu = c.mmu) : c2.parseNextInstruction iset = c.parseNextInstruction iset := by
  unfold parseNextInstruction
  rw [hpc, hmmu]

/-- The current instruction is not written by `handleInterrupts`. -/
theorem handleInterrupts_currentInstruction (k : Const) (c : Cpu) :
    (c.handleInterrupts k).2.currentInstruction = c.currentInstruction := by
  rw [handleInterrupts_shape]
  by_cases hc : (c.selectInterrupt k).1 ≠ 0 ∧ c.interruptMasterFlag = true
  · rw [if_pos hc]
    simp only [pushStack]
  · rw [if_neg hc]

/-- The second half of `cycle` keeps the pipelined instruction in step with
the program counter. -/
theorem lookahead_after_interrupts (k : Const) (iset : InstructionSet) (c1 : Cpu)
    (h : c1.nextInstruction = c1.parseNextInstruction iset) :
    (demote (reprime iset (c1.handleInterrupts k))).nextInstruction =
      (demote (reprime iset (c1.handleInterrupts k))).parseNextInstruction iset := by
  obtain ⟨d1, _, _, _, _, _, _, d8, d9⟩ := demote_fields (reprime iset (c1.handleInterrupts k))
  rw [d8, parse_eq_of iset _ _ d1 d9]
  cases hs : (c1.handleInterrupts k).1
  · have hb := handleInterrupts_not_serviced k c1 hs
    have hre : reprime iset (c1.handleInterrupts k) = (c1.handleInterrupts k).2 := by
      unfold reprime
      rw [hs]
      rfl
    rw [hre, hb]
    exact h.trans (parse_eq_of iset c1 _ rfl rfl).symm
  · have hre : reprime iset (c1.handleInterrupts k) =
        { (c1.handleInterrupts k).2 with
          nextInstruction := (c1.handleInterrupts k).2.parseNextInstruction iset } := by
      unfold reprime
      rw [hs]
      rfl
    rw [hre]
    exact (parse_eq_of iset (c1.handleInterrupts k).2 _ rfl rfl).symm

/-- The block of `cycle` that executes an instruction leaves the pipelined
instruction in step with the program counter. -/
theorem lookahead_after_execute (run : Nat → Cpu → Nat × Cpu) (iset : InstructionSet) (c : Cpu) :
    (c.executeStep run iset).2.nextInstruction =
      (c.executeStep run iset).2.parseNextInstruction iset := by
  rw [executeStep_eq run iset c]
  exact (parse_eq_of iset _ _ rfl rfl).symm

/-- After a serviced interrupt the program counter is a service vector. -/
theorem serviced_pc (k : Const) (hk : k.WellFormed) (c1 : Cpu)
    (h : (c1.handleInterrupts k).1 = true) :
    ∃ t, (c1.handleInterrupts k).2.pc = k.vector t := by
  obtain ⟨t, _, _, _, heq⟩ := serviced_cases k hk c1 h
  obtain ⟨_, _, _, _, _, hv, _⟩ := hk
  exact ⟨t, by rw [heq]; exact Nat.mod_eq_of_lt (hv t).2⟩

/-- C18. Lookahead stays in step with the program counter: if before a
`cycle()` call the pipelined next instruction is the decode of memory at the
program counter, then after the call, halted or not, interrupt serviced or
not, for every routine, the pipelined next instruction is again the decode of
the final memory at the final program counter; its source address is the
final program counter, which after a serviced interrupt is the service
vector, not the address following the executed instruction. -/
theorem lookahead_in_step (run : Nat → Cpu → Nat × Cpu) (k : Const) (iset : InstructionSet)
    (c : Cpu) (hnext : c.nextInstruction = c.parseNextInstruction iset) :
    (c.cycle run k iset).2.nextInstruction = (c.cycle run k iset).2.parseNextInstruction iset ∧
      (c.cycle run k iset).2.nextInstruction.bytePosition = (c.cycle run k iset).2.pc ∧
      (k.WellFormed → c.halted = true → (c.handleInterrupts k).1 = true →
        ∃ t, (c.cycle run k iset).2.nextInstruction.bytePosition = k.vector t) ∧
      (k.WellFormed → c.halted = false →
        ((c.executeStep run iset).2.handleInterrupts k).1 = true →
        ∃ t, (c.cycle run k iset).2.nextInstruction.bytePosition = k.vector t) := by
  have hpos : ∀ s : Cpu, (s.parseNextInstruction iset).bytePosition = s.pc := by
    intro s
    by_cases hb : s.mmu.read s.pc = 0xCB
    · rw [parse_prefixed iset s hb]
    · rw [parse_base iset s hb]; split <;> rfl
  have hmain : (c.cycle run k iset).2.nextInstruction =
      (c.cycle run k iset).2.parseNextInstruction iset := by
    cases hh : c.halted
    · rw [cycle_running run k iset c hh]
      exact lookahead_after_interrupts k iset _ (lookahead_after_execute run iset c)
    · rw [cycle_halted run k iset c hh]
      exact lookahead_after_interrupts k iset c hnext
  have hbyte : (c.cycle run k iset).2.nextInstruction.bytePosition = (c.cycle run k iset).2.pc := by
    rw [hmain, hpos]
  refine ⟨hmain, hbyte, ?_, ?_⟩
  · intro hk hh hs
    obtain ⟨t, ht⟩ := serviced_pc k hk c hs
    refine ⟨t, ?_⟩
    rw [hbyte, cycle_halted run k iset c hh]
    show (demote _).pc = _
    rw [(demote_fields _).1, (reprime_fields _ _).1]
    exact ht
  · intro hk hh hs
    obtain ⟨t, ht⟩ := serviced_pc k hk _ hs
    refine ⟨t, ?_⟩
    rw [hbyte, cycle_running run k iset c hh]
    show (demote _).pc = _
    rw [(demote_fields _).1, (reprime_fields _ _).1]
    exact ht

/-- Instance of `lookahead_in_step`: a prefixed instruction pipelined at
0x0150. -/
theorem lookahead_in_step_witness :
    Sample.cpuPrefixed.nextInstruction = Sample.cpuPrefixed.parseNextInstruction Sample.iset ∧
      (Sample.cpuPrefixed.cycle Sample.run Const.dmg Sample.iset).2.nextInstruction =
        (Sample.cpuPrefixed.cycle Sample.run Const.dmg Sample.iset).2.parseNextInstruction
          Sample.iset ∧
      (Sample.cpuPrefixed.cycle Sample.run Const.dmg Sample.iset).2.nextInstruction.bytePosition =
        (Sample.cpuPrefixed.cycle Sample.run Const.dmg Sample.iset).2.pc :=
  ⟨by decide,
    (lookahead_in_step Sample.run Const.dmg Sample.iset Sample.cpuPrefixed (by decide)).1,
    (lookahead_in_step Sample.run Const.dmg Sample.iset Sample.cpuPrefixed (by decide)).2.1⟩

/-- C19. A halted CPU executes nothing: from a state that is halted on entry
`cycle()` returns 0, invokes no routine (its result is the same for every
interpretation of the routines), leaves the program counter as the interrupt
controller leaves it, so unchanged unless an interrupt is serviced and never
advanced by an instruction length, and leaves the current instruction
unchanged; if in addition no source is both enabled and pending, the CPU
stays halted and the program counter, stack pointer, registers, memory,
master-interrupt-enable flag and pipelined next instruction are unchanged. -/
theorem halted_executes_nothing (run : Nat → Cpu → Nat × Cpu) (k : Const)
    (iset : InstructionSet) (c : Cpu) (hh : c.halted = true) :
    (c.cycle run k iset).1 = 0 ∧
      (∀ run2 : Nat → Cpu → Nat × Cpu, c.cycle run2 k iset = c.cycle run k iset) ∧
      (c.cycle run k iset).2.pc = (c.handleInterrupts k).2.pc ∧
      ((c.handleInterrupts k).1 = false → (c.cycle run k iset).2.pc = c.pc) ∧
      (c.cycle run k iset).2.currentInstruction = c.currentInstruction ∧
      ((∀ t, c.firable k t = false) →
        (c.cycle run k iset).2.halted = true ∧ (c.cycle run k iset).2.pc = c.pc ∧
          (c.cycle run k iset).2.sp = c.sp ∧ (c.cycle run k iset).2.general = c.general ∧
          (c.cycle run k iset).2.flags = c.flags ∧ (c.cycle run k iset).2.mmu = c.mmu ∧
          (c.cycle run k iset).2.interruptMasterFlag = c.interruptMasterFlag ∧
          (c.cycle run k iset).2.nextInstruction = c.nextInstruction) := by
  have hcy := cycle_halted run k iset c hh
  obtain ⟨d1, d2, d3, d4, d5, d6, d7, d8, d9⟩ :=
    demote_fields (reprime iset (c.handleInterrupts k))
  obtain ⟨r1, r2, r3, r4, r5, r6, _, r8, r9⟩ := reprime_fields iset (c.handleInterrupts k)
  have hpc : (c.cycle run k iset).2.pc = (c.handleInterrupts k).2.pc := by
    rw [hcy]
    show (demote _).pc = _
    rw [d1, r1]
  refine ⟨by rw [hcy], ?_, hpc, ?_, ?_, ?_⟩
  · intro run2
    rw [hcy, cycle_halted run2 k iset c hh]
  · intro hs
    rw [hpc, handleInterrupts_not_serviced k c hs]
  · rw [hcy]
    show (demote _).currentInstruction = _
    rw [d7, r8, handleInterrupts_currentInstruction]
  · intro hnone
    have hn := handleInterrupts_none k c hnone
    have hre : reprime iset (c.handleInterrupts k) = c := by
      unfold reprime
      rw [hn]
      rfl
    rw [hcy]
    obtain ⟨e1, e2, e3, e4, e5, e6, _, e8, e9⟩ := demote_fields c
    refine ⟨?_, ?_, ?_, ?_, ?_, ?_, ?_, ?_⟩
    · show (demote _).halted = true
      rw [hre, e5, hh]
    · show (demote _).pc = _
      rw [hre, e1]
    · show (demote _).sp = _
      rw [hre, e2]
    · show (demote _).general = _
      rw [hre, e3]
    · show (demote _).flags = _
      rw [hre, e4]
    · show (demote _).mmu = _
      rw [hre, e9]
    · show (demote _).interruptMasterFlag = _
      rw [hre, e6]
    · show (demote _).nextInstruction = _
      rw [hre, e8]

/-- Instance of `halted_executes_nothing`: a halted machine with VBlank and
Timer enabled and pending and the master flag clear. -/
theorem halted_executes_nothing_witness :
    Sample.cpuHalted.halted = true ∧
      (Sample.cpuHalted.cycle Sample.runMark Const.dmg Sample.iset).1 = 0 ∧
      (∀ run2 : Nat → Cpu → Nat × Cpu,
        Sample.cpuHalted.cycle run2 Const.dmg Sample.iset =
          Sample.cpuHalted.cycle Sample.runMark Const.dmg Sample.iset) ∧
      (Sample.cpuHalted.cycle Sample.runMark Const.dmg Sample.iset).2.currentInstruction =
        Sample.cpuHalted.currentInstruction :=
  ⟨by decide,
    (halted_executes_nothing Sample.runMark Const.dmg Sample.iset Sample.cpuHalted
      (by decide)).1,
    (halted_executes_nothing Sample.runMark Const.dmg Sample.iset Sample.cpuHalted
      (by decide)).2.1,
    (halted_executes_nothing Sample.runMark Const.dmg Sample.iset Sample.cpuHalted
      (by decide)).2.2.2.2.1⟩

end Cpu
end GGB.Hardware
